import Mathlib

/-!
Shallow embedding of the multi-symbol download orchestrator of
src/yfinance/multi.py: the functions download, _realign_dfs,
_download_one_threaded and _download_one, over an abstract per-symbol
fetch outcome (Ticker(t).history is outside the embedded module and is
passed in as a function from symbol to either a series or an error).
DataFrames are modelled as a list of named value columns plus rows of
one timestamp and one optional value per column; timestamps carry a
local wall clock and an optional UTC offset, so that tz_localize(None)
and pd.to_datetime(index, utc=True) are expressible.  The event-merge
entry point utils.safe_merge_dfs exercised by the test suite is not part
of src/ and is modelled from the specification text where needed.
ISIN resolution, logging and the progress bar are out of the embedded
scope, as the specification itself excludes them.
-/

namespace YFin

/-- Insert an element into a list before the first element it compares
below-or-equal to. -/
def ordInsert (le : α → α → Bool) (x : α) : List α → List α
  | [] => [x]
  | y :: ys => if le x y then x :: y :: ys else y :: ordInsert le x ys

/-- Insertion sort with a boolean comparator. -/
def sortLe (le : α → α → Bool) (l : List α) : List α := l.foldr (ordInsert le) []

/-- A ticker symbol (a Python str). -/
abbrev Sym := String

/-- Python str.upper on the ASCII range, applied character by character. -/
def upperSym (s : String) : String := ⟨s.data.map Char.toUpper⟩

/-- Line 115 of multi.py: tickers = list(set([ticker.upper() for ticker in tickers])). -/
def normalize (tickers : List String) : List Sym := (tickers.map upperSym).dedup

/-- One entry of a DatetimeIndex: the local wall clock (in abstract units)
plus an optional UTC offset.  tz = none models a zone-naive timestamp. -/
structure Stamp where
  wall : Int
  tz : Option Int
deriving DecidableEq, Repr

/-- The UTC instant of a stamp; a naive stamp is read at face value. -/
def utcKey (s : Stamp) : Int := s.wall - (s.tz.getD 0)

/-- An injective ranking of the optional offset, used only to break ties. -/
def tzRank : Option Int → Int × Int
  | none => (0, 0)
  | some o => (1, o)

/-- A total comparison of stamps: by UTC instant, then by wall clock, then by
offset, so that sorting a duplicate-free set of stamps is canonical. -/
def stampLe (a b : Stamp) : Bool :=
  if utcKey a = utcKey b then
    if a.wall = b.wall then
      if (tzRank a.tz).1 = (tzRank b.tz).1 then
        decide ((tzRank a.tz).2 ≤ (tzRank b.tz).2)
      else decide ((tzRank a.tz).1 < (tzRank b.tz).1)
    else decide (a.wall < b.wall)
  else decide (utcKey a < utcKey b)

/-- Strict code-point comparison of character lists. -/
def charsLt : List Char → List Char → Bool
  | [], [] => false
  | [], _ :: _ => true
  | _ :: _, [] => false
  | a :: as, b :: bs =>
      if a.toNat < b.toNat then true
      else if b.toNat < a.toNat then false
      else charsLt as bs

/-- Strict comparison of strings by code points. -/
def strLt (a b : String) : Bool := charsLt a.data b.data

/-- Reflexive comparison of strings. -/
def strLe (a b : String) : Bool := !(strLt b a)

/-- A column key of the unified table: the list of its level labels. -/
abbrev ColKey := List String

/-- Lexicographic comparison of column keys, as a multi-level column sort
compares them level by level. -/
def keyLe : ColKey → ColKey → Bool
  | [], _ => true
  | _ :: _, [] => false
  | a :: as, b :: bs =>
      if strLt a b then true
      else if strLt b a then false
      else keyLe as bs

/-- A per-symbol DataFrame: named value columns plus rows carrying one
timestamp and one optional value per column (a missing value is a NaN). -/
structure DF where
  fields : List String
  rows : List (Stamp × List (Option Int))
deriving DecidableEq, Repr

/-- The index of a frame: its timestamps in row order. -/
def dfIndex (df : DF) : List Stamp := df.rows.map Prod.fst

/-- Modelled from the spec: the column set of the empty placeholder series
that utils.empty_df builds for a failed instrument (utils.py is not part
of src/); the spec only requires an empty placeholder series with the
standard price fields. -/
def priceFields : List String := ["Open", "High", "Low", "Close", "Adj Close", "Volume"]

/-- Modelled from the spec: utils.empty_df() with no index, the empty
placeholder series stored for a failed instrument. -/
def empty_df : DF := ⟨priceFields, []⟩

/-- First match of a timestamp in a frame, giving that row's values. -/
def lookupRow (df : DF) (t : Stamp) : Option (List (Option Int)) :=
  (df.rows.find? (fun r => decide (r.1 = t))).map Prod.snd

/-- The value of one row at column position j; out of range reads as missing. -/
def rowVal (vs : List (Option Int)) (j : Nat) : Option Int := (vs.get? j).getD none

/-- The unified multi-instrument table: a row index plus columns keyed by
their level labels, each carrying one optional value per index entry. -/
structure Table where
  index : List Stamp
  cols : List (ColKey × List (Option Int))
deriving DecidableEq, Repr

/-- True when a frame index contains a repeated timestamp. -/
def hasDupIndex (df : DF) : Bool := !(decide (dfIndex df).Nodup)

/-- True when all frames carry literally the same index. -/
def allIdxEq : List (Sym × DF) → Bool
  | [] => true
  | p :: rest => rest.all (fun q => decide (dfIndex q.2 = dfIndex p.2))

/-- The condition under which pd.concat(axis=1, sort=True) at line 193 of
multi.py raises: the frames must be reindexed onto a union index while some
frame carries duplicate index labels. -/
def concatFails (dfs : List (Sym × DF)) : Bool :=
  dfs.any (fun p => hasDupIndex p.2) && !(allIdxEq dfs)

/-- The sorted, duplicate-free union of all frame indexes. -/
def unionIndex (dfs : List (Sym × DF)) : List Stamp :=
  sortLe stampLe ((dfs.map (fun p => dfIndex p.2)).flatten.dedup)

/-- The columns one frame contributes, keyed by symbol and field name, with
its values aligned onto a given index by exact timestamp lookup. -/
def blockColsOn (u : List Stamp) (p : Sym × DF) : List (ColKey × List (Option Int)) :=
  p.2.fields.enum.map (fun q =>
    ([p.1, q.2], u.map (fun t =>
      match lookupRow p.2 t with
      | none => none
      | some vs => rowVal vs q.1)))

/-- The columns one frame contributes when no reindexing is needed: values
are taken row by row. -/
def blockColsPos (p : Sym × DF) : List (ColKey × List (Option Int)) :=
  p.2.fields.enum.map (fun q =>
    ([p.1, q.2], p.2.rows.map (fun r => rowVal r.2 q.1)))

/-- pd.concat(values, axis=1, sort=True, keys=keys, names=[Ticker, Price])
(lines 193-194 of multi.py): with identical indexes the frames are placed
side by side on that index; otherwise every frame is reindexed onto the
sorted union of the indexes.  Column blocks follow the dict order of the
frames and are keyed by (symbol, field name). -/
def concatDFS (dfs : List (Sym × DF)) : Table :=
  if allIdxEq dfs then
    { index := (dfs.head?.map (fun p => dfIndex p.2)).getD [],
      cols := (dfs.map blockColsPos).flatten }
  else
    { index := unionIndex dfs,
      cols := (dfs.map (blockColsOn (unionIndex dfs))).flatten }

/-- The module-level shared collections of yfinance.shared, reset at lines
120-123 of multi.py: the result frames, error strings and traceback strings,
each keyed by uppercased symbol. -/
structure DState where
  dfs : List (Sym × DF)
  errors : List (Sym × String)
  tracebacks : List (Sym × String)
deriving DecidableEq, Repr

def initState : DState := ⟨[], [], []⟩

/-- Python dict assignment: replace the value in place when the key is
present, otherwise append at the end. -/
def dictInsert (m : List (Sym × α)) (k : Sym) (v : α) : List (Sym × α) :=
  if (m.map Prod.fst).contains k then
    m.map (fun p => if p.1 = k then (k, v) else p)
  else m ++ [(k, v)]

/-- Python dict read: the value stored at a key, if present. -/
def lookupA [BEq κ] (m : List (κ × α)) (k : κ) : Option α :=
  (m.find? (fun p => p.1 == k)).map Prod.snd

/-- One write to the shared collections, recorded for the write-once audit. -/
inductive Wr
  | dfsW (k : Sym) (v : DF)
  | errW (k : Sym) (e : String)
  | tbW (k : Sym) (e : String)
deriving DecidableEq, Repr

/-- _download_one (lines 249-272 of multi.py): run the per-symbol fetch; on
an exception store the empty placeholder plus the error and the traceback
under the uppercased symbol, otherwise store the fetched series.  The second
component lists the writes performed, in order. -/
def _download_one (fetch : Sym → Except String DF) (ticker : Sym) (st : DState) :
    DState × List Wr :=
  match fetch ticker with
  | .error e =>
      (⟨dictInsert st.dfs (upperSym ticker) empty_df,
        dictInsert st.errors (upperSym ticker) e,
        dictInsert st.tracebacks (upperSym ticker) e⟩,
       [.dfsW (upperSym ticker) empty_df, .errW (upperSym ticker) e,
        .tbW (upperSym ticker) e])
  | .ok d =>
      (⟨dictInsert st.dfs (upperSym ticker) d, st.errors, st.tracebacks⟩,
       [.dfsW (upperSym ticker) d])

/-- The download loop over a list of symbols (threaded: lines 129-141 of
multi.py, where the list is the completion order of the worker threads;
synchronous: lines 143-152, where it is the normalized ticker order),
accumulating the writes to the shared collections. -/
def runAll (fetch : Sym → Except String DF) (tickers : List Sym) (st : DState) :
    DState × List Wr :=
  tickers.foldl (fun acc t =>
    let r := _download_one fetch t acc.1
    (r.1, acc.2 ++ r.2)) (st, [])

/-- The first loop of _realign_dfs (lines 214-220 of multi.py): the index of
the first frame with strictly greatest row count; None when every frame is
empty. -/
def refIndex (dfs : List (Sym × DF)) : Option (List Stamp) :=
  (dfs.foldl (fun acc p =>
    if p.2.rows.length > acc.1 then (p.2.rows.length, some (dfIndex p.2)) else acc)
    ((0 : Nat), (none : Option (List Stamp)))).2

/-- pd.DataFrame(index=idx, data=df) (line 224 of multi.py): reindex the
frame onto idx by exact label lookup, filling missing labels with missing
values; with index=None the frame is kept as is. -/
def reindexOnto (idx : Option (List Stamp)) (df : DF) : DF :=
  match idx with
  | none => df
  | some is =>
      ⟨df.fields,
       is.map (fun t => (t, (lookupRow df t).getD (df.fields.map (fun _ => none))))⟩

/-- DataFrame.drop_duplicates() (line 225 of multi.py): drop every row whose
value tuple already occurred, keeping the first occurrence. -/
def dropDupRows (seen : List (List (Option Int))) :
    List (Stamp × List (Option Int)) → List (Stamp × List (Option Int))
  | [] => []
  | r :: rest =>
      if r.2 ∈ seen then dropDupRows seen rest
      else r :: dropDupRows (r.2 :: seen) rest

/-- DataFrame.dropna() (line 228 of multi.py): keep only the rows whose
values are all present. -/
def dropna (df : DF) : DF :=
  ⟨df.fields, df.rows.filter (fun r => r.2.all Option.isSome)⟩

/-- The sorted duplicate-free union of two column sets, as
pd.concat(axis=0, sort=True) builds the joint column axis. -/
def unionFields (a b : List String) : List String := sortLe strLe ((a ++ b).dedup)

/-- The except branch of _realign_dfs (lines 226-229 of multi.py):
pd.concat([empty_df(idx), df.dropna()], axis=0, sort=True): the all-missing
rows of the empty frame on idx followed by the fully valued rows of the
frame, over the sorted union of the two column sets. -/
def fallbackConcat (idx : Option (List Stamp)) (df : DF) : DF :=
  let flds := unionFields priceFields df.fields
  let idxRows := (match idx with
    | none => ([] : List Stamp)
    | some is => is).map (fun t => (t, flds.map (fun _ => (none : Option Int))))
  ⟨flds,
   idxRows ++ (dropna df).rows.map (fun r =>
     (r.1, flds.map (fun fld =>
       match df.fields.findIdx? (fun g => g == fld) with
       | none => none
       | some j => rowVal r.2 j)))⟩

/-- df.loc[~df.index.duplicated(keep='last')] (lines 231-233 of multi.py):
drop every row whose timestamp occurs again later. -/
def dedupKeepLast : List (Stamp × List (Option Int)) → List (Stamp × List (Option Int))
  | [] => []
  | r :: rest =>
      if rest.any (fun x => decide (x.1 = r.1)) then dedupKeepLast rest
      else r :: dedupKeepLast rest

/-- The body applied to one frame inside the second loop of _realign_dfs.
pd.DataFrame(index=idx, data=df) goes through Index.reindex, whose equality
fast path keeps a frame whose index already equals the reference index as it
is, duplicate labels included (the reference frame itself always lands here);
otherwise the frame is reindexed when its labels are unique, and a
duplicate-labelled frame whose index differs from the reference raises and
takes the except branch. With index None (every frame empty) the constructor
reindexes nothing and keeps the frame. The try branches then apply
drop_duplicates, and every branch is followed by the duplicate-timestamp
drop keeping the last occurrence. -/
def realignOne (idx : Option (List Stamp)) (df : DF) : DF :=
  let d1 : DF :=
    match idx with
    | none => ⟨df.fields, dropDupRows [] df.rows⟩
    | some is =>
        if dfIndex df = is then ⟨df.fields, dropDupRows [] df.rows⟩
        else if (dfIndex df).Nodup then
          ⟨(reindexOnto (some is) df).fields,
           dropDupRows [] (reindexOnto (some is) df).rows⟩
        else fallbackConcat (some is) df
  ⟨d1.fields, dedupKeepLast d1.rows⟩

/-- _realign_dfs (lines 213-233 of multi.py): capture the reference index,
then walk the dict keys updating each entry in place. -/
def _realign_dfs (dfs : List (Sym × DF)) : List (Sym × DF) :=
  let idx := refIndex dfs
  (dfs.map Prod.fst).foldl (fun m key =>
    match lookupA m key with
    | none => m
    | some df => dictInsert m key (realignOne idx df)) dfs

/-- Lines 91-97 of multi.py: when ignore_tz is None it defaults to False
exactly when interval[1:] is the string m or the string h, True otherwise. -/
def resolveIgnoreTz (ignore_tz : Option Bool) (interval : String) : Bool :=
  match ignore_tz with
  | some b => b
  | none => if interval.drop 1 = "m" ∨ interval.drop 1 = "h" then false else true

/-- The group_by argument of download. -/
inductive GroupBy
  | ticker
  | column
deriving DecidableEq, Repr

/-- Lines 187-190 of multi.py: when ignore_tz holds, every non-empty frame
has its index localized to naive wall-clock time. -/
def applyIgnoreTz (b : Bool) (dfs : List (Sym × DF)) : List (Sym × DF) :=
  if b then
    dfs.map (fun p =>
      if p.2.rows.length > 0 then
        (p.1, ⟨p.2.fields, p.2.rows.map (fun r => (⟨r.1.wall, none⟩, r.2))⟩)
      else p)
  else dfs

/-- pd.to_datetime(index, utc=True) (line 199 of multi.py): a naive stamp is
read as UTC, an aware stamp is converted to UTC. -/
def toUtc (s : Stamp) : Stamp :=
  match s.tz with
  | none => ⟨s.wall, some 0⟩
  | some o => ⟨s.wall - o, some 0⟩

/-- columns.swaplevel(0, 1) on one key. -/
def swapKey : ColKey → ColKey
  | [a, b] => [b, a]
  | k => k

/-- Comparison of column entries by their key. -/
def colLe (a b : ColKey × List (Option Int)) : Bool := keyLe a.1 b.1

/-- group_by == column (lines 203-205 of multi.py): swap the two column
levels and sort the columns by their keys. -/
def applyGroupBy (gb : GroupBy) (t : Table) : Table :=
  match gb with
  | .ticker => t
  | .column => ⟨t.index, sortLe colLe (t.cols.map (fun c => (swapKey c.1, c.2)))⟩

/-- Lines 207-208 of multi.py: with multi_level_index False and a single
ticker, drop the ticker level from the column keys. -/
def applyDropLevel (mli : Bool) (n : Nat) (gb : GroupBy) (t : Table) : Table :=
  if !mli && n == 1 then
    ⟨t.index,
     t.cols.map (fun c =>
       (match gb with
        | .ticker => c.1.drop 1
        | .column => c.1.take 1, c.2))⟩
  else t

/-- The shared state once the loop at lines 129-152 of multi.py has finished:
with threads the frames arrive in the completion order of the workers, the
synchronous loop stores them in normalized ticker order. -/
def loopState (fetch : Sym → Except String DF) (threads : Bool) (order : List Sym)
    (tickersIn : List String) : DState :=
  (runAll fetch (if threads then order else normalize tickersIn) initState).1

/-- The per-frame map exactly as the concatenation at line 193 of multi.py
receives it: the shared frames after the ignore_tz localization pass. -/
def concatInput (fetch : Sym → Except String DF) (threads : Bool) (order : List Sym)
    (tickersIn : List String) (ignore_tz : Option Bool) (interval : String) :
    List (Sym × DF) :=
  applyIgnoreTz (resolveIgnoreTz ignore_tz interval)
    (loopState fetch threads order tickersIn).dfs

/-- Lines 192-198 of multi.py: concatenate the frames; if that fails, run
_realign_dfs and concatenate the realigned frames. -/
def concatStage (dfs : List (Sym × DF)) : Table :=
  if concatFails dfs then concatDFS (_realign_dfs dfs) else concatDFS dfs

/-- download (lines 38-210 of multi.py) over an abstract per-symbol fetch
outcome, returning the unified table and the shared error map.  ISIN
resolution, logging and the progress bar are outside the embedded scope. -/
def download (fetch : Sym → Except String DF) (tickersIn : List String)
    (ignore_tz : Option Bool) (interval : String) (threads : Bool)
    (order : List Sym) (group_by : GroupBy) (multi_level_index : Bool) :
    Table × List (Sym × String) :=
  let st := loopState fetch threads order tickersIn
  let t0 := concatStage (concatInput fetch threads order tickersIn ignore_tz interval)
  let t1 : Table := ⟨t0.index.map toUtc, t0.cols⟩
  let t2 := applyGroupBy group_by t1
  let t3 := applyDropLevel multi_level_index (normalize tickersIn).length group_by t2
  (t3, st.errors)

/-- One row of a merged series: a timestamp, the price value when the row
comes from a bar, and the accumulated dividend amount. -/
structure MRow where
  ts : Nat
  close : Option Int
  div : Int
deriving DecidableEq, Repr

/-- Modelled from the spec: the bar an event with sub-day precision attaches
to is the one whose half-open interval of one bar length contains the event
timestamp (section 4.2 of the spec; utils.safe_merge_dfs is not part of
src/). -/
def attachTo (iv : Nat) (bars : List Nat) (t : Nat) : Option Nat :=
  bars.find? (fun b => b ≤ t && t < b + iv)

/-- Insert an event-only row at its own timestamp, keeping ascending order
and accumulating into an existing row at the same timestamp. -/
def insertEventRow (t : Nat) (amt : Int) : List MRow → List MRow
  | [] => [⟨t, none, amt⟩]
  | r :: rest =>
      if r.ts = t then ⟨r.ts, r.close, r.div + amt⟩ :: rest
      else if t < r.ts then ⟨t, none, amt⟩ :: r :: rest
      else r :: insertEventRow t amt rest

/-- Add an event amount onto the row of the bar it attaches to. -/
def addToBar (b : Nat) (amt : Int) (rows : List MRow) : List MRow :=
  rows.map (fun r => if r.ts = b then ⟨r.ts, r.close, r.div + amt⟩ else r)

/-- Modelled from the spec: utils.safe_merge_dfs for an intraday bar series
and dividend events (sections 4.2 and 8 of the spec; utils.py is not part of
src/): every event either attaches to the bar whose half-open interval
contains it, or materializes a new event-only row at the event's own
timestamp; bar rows start with a zero event value; same-kind amounts on one
row accumulate by summation. -/
def safe_merge_dfs (iv : Nat) (bars : List (Nat × Int)) (events : List (Nat × Int)) :
    List MRow :=
  events.foldl (fun rows ev =>
    match attachTo iv (bars.map Prod.fst) ev.1 with
    | some b => addToBar b ev.2 rows
    | none => insertEventRow ev.1 ev.2 rows)
    (bars.map (fun b => ⟨b.1, some b.2, 0⟩))

/-- The frame _download_one stores for a symbol: the fetched series on
success, the empty placeholder on an exception. -/
def dlOutcome (fetch : Sym → Except String DF) (t : Sym) : DF :=
  match fetch t with
  | .ok d => d
  | .error _ => empty_df

/-- The error _download_one records for a symbol, when there is one. -/
def fetchErr (fetch : Sym → Except String DF) (t : Sym) : Option String :=
  match fetch t with
  | .error e => some e
  | .ok _ => none

/-- The writes one _download_one call performs. -/
def traceOne (fetch : Sym → Except String DF) (t : Sym) : List Wr :=
  match fetch t with
  | .error e =>
      [.dfsW (upperSym t) empty_df, .errW (upperSym t) e, .tbW (upperSym t) e]
  | .ok d => [.dfsW (upperSym t) d]

/-- True when the fetch of a symbol raises. -/
def fetchFails (fetch : Sym → Except String DF) (t : Sym) : Bool :=
  match fetch t with
  | .error _ => true
  | .ok _ => false

/-- Predicate on writes: a result-map write under a given key. -/
def isDfsW (k : Sym) : Wr → Bool
  | .dfsW k2 _ => k2 == k
  | _ => false

/-- Predicate on writes: an error-map write under a given key. -/
def isErrW (k : Sym) : Wr → Bool
  | .errW k2 _ => k2 == k
  | _ => false

/-- Predicate on writes: a traceback-map write under a given key. -/
def isTbW (k : Sym) : Wr → Bool
  | .tbW k2 _ => k2 == k
  | _ => false

/-- A one-row frame with one Close column, UTC-aware stamp, value 1. -/
def dfConcA : DF := ⟨["Close"], [(⟨0, some 0⟩, [some 1])]⟩

/-- A one-row frame with one Close column, UTC-aware stamp, value 2. -/
def dfConcB : DF := ⟨["Close"], [(⟨0, some 0⟩, [some 2])]⟩

/-- A fetch serving the symbols A and B and failing on all others. -/
def fetchAB : Sym → Except String DF := fun s =>
  if s = "A" then .ok dfConcA else if s = "B" then .ok dfConcB else .error "no data"

/-- A one-row frame whose stamp carries a non-UTC offset. -/
def dfAware : DF := ⟨["Close"], [(⟨600, some 120⟩, [some 7])]⟩

/-- A fetch serving the zone-aware frame for every symbol. -/
def fetchAware : Sym → Except String DF := fun _ => .ok dfAware

/-- A fetch failing on INTC and serving a frame for every other symbol. -/
def fetchOneBad : Sym → Except String DF := fun s =>
  if s = "INTC" then .error "HTTPError" else .ok dfConcA

/-- A fetch failing on every symbol. -/
def fetchBoom : Sym → Except String DF := fun _ => .error "boom"

/-- A frame with unique timestamps but two identical value rows. -/
def dfDupVals : DF := ⟨["Close"], [(⟨0, none⟩, [some 5]), (⟨1, none⟩, [some 5])]⟩

/-- A frame with a duplicated timestamp. -/
def dfDupIdx : DF := ⟨["Close"], [(⟨2, none⟩, [some 7]), (⟨2, none⟩, [some 8])]⟩

/-- A frame map on which the first concatenation fails. -/
def exDfs : List (Sym × DF) := [("A", dfDupVals), ("B", dfDupIdx)]

/-- The degraded realignment exactly as the specification words it: every
series is reindexed onto the reference index by exact timestamp lookup only,
and residual duplicate timestamps are dropped keeping the last occurrence. -/
def realignClaim (dfs : List (Sym × DF)) : List (Sym × DF) :=
  dfs.map (fun p =>
    (p.1,
     let re := reindexOnto (refIndex dfs) p.2
     ⟨re.fields, dedupKeepLast re.rows⟩))

/-- The realignment as a pointwise map: reference index of the first longest
frame; a frame whose index equals the reference is kept as is (reindex
equality fast path) and a frame with unique timestamps is exactly reindexed,
in both cases dropping duplicate value rows keeping the first; a
duplicate-timestamped frame whose index differs from the reference instead
appends its fully valued rows to an all-missing copy of the reference;
duplicate timestamps are then dropped keeping the last. -/
def realignBySpec (dfs : List (Sym × DF)) : List (Sym × DF) :=
  dfs.map (fun p => (p.1, realignOne (refIndex dfs) p.2))

/-- Thirty-minute bars covering 2023-09-13 00:00 to 16:00, in minutes from
midnight of that day, each with price value 1. -/
def c7bars : List (Nat × Int) := (List.range 33).map (fun i => (30 * i, 1))

/-- The ticker level of a column key: the first level under group_by ticker,
the second under group_by column. -/
def colTicker (gb : GroupBy) (k : ColKey) : Option Sym :=
  match gb with
  | .ticker => k.head?
  | .column => (k.drop 1).head?

theorem ordInsert_perm (le : α → α → Bool) (x : α) :
    ∀ l : List α, (ordInsert le x l).Perm (x :: l) := by
  intro l
  induction l with
  | nil => simp [ordInsert]
  | cons y ys ih =>
    by_cases h : le x y
    · simp [ordInsert, h]
    · simp only [ordInsert, h, if_neg]
      exact ((ih.cons y).trans (List.Perm.swap x y ys)).symm.symm

theorem sortLe_perm (le : α → α → Bool) : ∀ l : List α, (sortLe le l).Perm l := by
  intro l
  induction l with
  | nil => simp [sortLe]
  | cons y ys ih =>
    have h1 : sortLe le (y :: ys) = ordInsert le y (sortLe le ys) := rfl
    rw [h1]
    exact (ordInsert_perm le y (sortLe le ys)).trans (ih.cons y)

theorem mem_ordInsert (le : α → α → Bool) (x a : α) (l : List α) :
    a ∈ ordInsert le x l ↔ a = x ∨ a ∈ l := by
  have := (ordInsert_perm le x l).mem_iff (a := a)
  simpa using this

theorem mem_sortLe (le : α → α → Bool) (a : α) (l : List α) :
    a ∈ sortLe le l ↔ a ∈ l :=
  (sortLe_perm le l).mem_iff

theorem pairwise_ordInsert (le : α → α → Bool)
    (htot : ∀ a b, le a b = true ∨ le b a = true)
    (htr : ∀ a b c, le a b = true → le b c = true → le a c = true)
    (x : α) : ∀ l : List α, l.Pairwise (fun a b => le a b = true) →
      (ordInsert le x l).Pairwise (fun a b => le a b = true) := by
  intro l
  induction l with
  | nil => intro _; simp [ordInsert]
  | cons y ys ih =>
    intro hp
    rcases List.pairwise_cons.1 hp with ⟨hy, hys⟩
    by_cases h : le x y
    · simp only [ordInsert, h, if_pos]
      refine List.pairwise_cons.2 ⟨?_, hp⟩
      intro b hb
      rcases List.mem_cons.1 hb with hb | hb
      · subst hb; exact h
      · exact htr x y b h (hy b hb)
    · simp only [ordInsert, h, if_neg]
      refine List.pairwise_cons.2 ⟨?_, ih hys⟩
      intro b hb
      rcases (mem_ordInsert le x b ys).1 hb with hb | hb
      · rcases htot x y with hxy | hyx
        · exact absurd hxy h
        · rw [hb]; exact hyx
      · exact hy b hb

theorem pairwise_sortLe (le : α → α → Bool)
    (htot : ∀ a b, le a b = true ∨ le b a = true)
    (htr : ∀ a b c, le a b = true → le b c = true → le a c = true)
    (l : List α) : (sortLe le l).Pairwise (fun a b => le a b = true) := by
  induction l with
  | nil => simp [sortLe]
  | cons y ys ih => exact pairwise_ordInsert le htot htr y (sortLe le ys) ih

/-- Two sorted permutations of each other agree, provided the comparator is
antisymmetric up to a key and that key has no duplicates. -/
theorem sorted_perm_eq_of_keys (le : α → α → Bool) (key : α → β)
    (hkey : ∀ a b, le a b = true → le b a = true → key a = key b) :
    ∀ l₁ l₂ : List α, l₁.Perm l₂ →
      l₁.Pairwise (fun a b => le a b = true) →
      l₂.Pairwise (fun a b => le a b = true) →
      (l₁.map key).Nodup → l₁ = l₂ := by
  intro l₁
  induction l₁ with
  | nil =>
    intro l₂ hp _ _ _
    exact hp.nil_eq
  | cons a t₁ ih =>
    intro l₂ hp hs₁ hs₂ hnd
    rcases l₂ with _ | ⟨b, t₂⟩
    · exact absurd hp.symm.nil_eq (by simp)
    rcases List.pairwise_cons.1 hs₁ with ⟨ha, ht₁⟩
    rcases List.pairwise_cons.1 hs₂ with ⟨hb, ht₂⟩
    have hab : a = b := by
      have hamem : a ∈ b :: t₂ := hp.mem_iff.1 (by simp)
      rcases List.mem_cons.1 hamem with h | h
      · exact h
      · have hba : le b a = true := hb a h
        have hbmem : b ∈ a :: t₁ := hp.symm.mem_iff.1 (by simp)
        rcases List.mem_cons.1 hbmem with h2 | h2
        · exact h2.symm
        · have hab2 : le a b = true := ha b h2
          have hk : key a = key b := hkey a b hab2 hba
          exfalso
          have hndl2 : ((b :: t₂).map key).Nodup := hnd.perm (hp.map key)
          rw [List.map_cons, List.nodup_cons] at hndl2
          exact hndl2.1 (hk ▸ List.mem_map_of_mem key h)
    subst hab
    have hp2 : t₁.Perm t₂ := hp.cons_inv
    have ht : t₁ = t₂ := ih t₂ hp2 ht₁ ht₂ (List.nodup_cons.1 (by simpa using hnd)).2
    rw [ht]

/-- Sorting is canonical on permuted inputs with duplicate-free keys. -/
theorem sortLe_eq_of_perm (le : α → α → Bool) (key : α → β)
    (htot : ∀ a b, le a b = true ∨ le b a = true)
    (htr : ∀ a b c, le a b = true → le b c = true → le a c = true)
    (hkey : ∀ a b, le a b = true → le b a = true → key a = key b)
    {l₁ l₂ : List α} (hp : l₁.Perm l₂) (hnd : (l₁.map key).Nodup) :
    sortLe le l₁ = sortLe le l₂ := by
  have h1 : (sortLe le l₁).Perm (sortLe le l₂) :=
    (sortLe_perm le l₁).trans (hp.trans (sortLe_perm le l₂).symm)
  have hnd2 : ((sortLe le l₁).map key).Nodup :=
    hnd.perm ((sortLe_perm le l₁).symm.map key)
  exact sorted_perm_eq_of_keys le key hkey _ _ h1
    (pairwise_sortLe le htot htr l₁) (pairwise_sortLe le htot htr l₂) hnd2

theorem charOfNat_toNat (n : Nat) (hv : n.isValidChar) : (Char.ofNat n).toNat = n := by
  simp only [Char.ofNat, dif_pos hv, Char.ofNatAux, Char.toNat]
  rfl

theorem toUpper_idem (c : Char) : c.toUpper.toUpper = c.toUpper := by
  unfold Char.toUpper
  by_cases h : c.toNat ≥ 97 ∧ c.toNat ≤ 122
  · rw [if_pos h]
    have hv : (c.toNat - 32).isValidChar := Or.inl (by omega)
    have ht : (Char.ofNat (c.toNat - 32)).toNat = c.toNat - 32 := charOfNat_toNat _ hv
    rw [if_neg (by omega)]
  · rw [if_neg h, if_neg h]

theorem upperSym_idem (s : String) : upperSym (upperSym s) = upperSym s := by
  simp only [upperSym, List.map_map]
  congr 1
  exact List.map_congr_left (fun c _ => toUpper_idem c)

theorem normalize_nodup (tickers : List String) : (normalize tickers).Nodup :=
  List.nodup_dedup _

theorem mem_normalize_upper {tickers : List String} {t : Sym}
    (h : t ∈ normalize tickers) : upperSym t = t := by
  rcases List.mem_map.1 (List.mem_dedup.1 h) with ⟨u, _, hu⟩
  rw [← hu, upperSym_idem]

theorem normalize_self {ts : List Sym} (hup : ∀ t ∈ ts, upperSym t = t)
    (hnd : ts.Nodup) : normalize ts = ts := by
  unfold normalize
  rw [List.map_congr_left (fun t ht => hup t ht)]
  have hid : List.map (fun t => t) ts = ts := by simp
  rw [hid]
  exact List.dedup_eq_self.2 hnd

theorem tzRank_inj {x y : Option Int} (h : tzRank x = tzRank y) : x = y := by
  cases x <;> cases y <;> simp only [tzRank] at h
  · rfl
  · exact absurd (congrArg Prod.fst h) (by norm_num)
  · exact absurd (congrArg Prod.fst h) (by norm_num)
  · exact congrArg some (congrArg Prod.snd h)

theorem stampLe_iff (a b : Stamp) : stampLe a b = true ↔
    (utcKey a < utcKey b ∨
      (utcKey a = utcKey b ∧
        (a.wall < b.wall ∨
          (a.wall = b.wall ∧
            ((tzRank a.tz).1 < (tzRank b.tz).1 ∨
              ((tzRank a.tz).1 = (tzRank b.tz).1 ∧
                (tzRank a.tz).2 ≤ (tzRank b.tz).2)))))) := by
  unfold stampLe
  by_cases e1 : utcKey a = utcKey b
  · rw [if_pos e1]
    by_cases e2 : a.wall = b.wall
    · rw [if_pos e2]
      by_cases e3 : (tzRank a.tz).1 = (tzRank b.tz).1
      · rw [if_pos e3]
        simp only [decide_eq_true_eq]
        omega
      · rw [if_neg e3]
        simp only [decide_eq_true_eq]
        omega
    · rw [if_neg e2]
      simp only [decide_eq_true_eq]
      omega
  · rw [if_neg e1]
    simp only [decide_eq_true_eq]
    omega

theorem stampLe_total (a b : Stamp) : stampLe a b = true ∨ stampLe b a = true := by
  rw [stampLe_iff, stampLe_iff]
  omega

theorem stampLe_trans (a b c : Stamp) (h1 : stampLe a b = true)
    (h2 : stampLe b c = true) : stampLe a c = true := by
  rw [stampLe_iff] at h1 h2 ⊢
  omega

theorem stampLe_antisymm (a b : Stamp) (h1 : stampLe a b = true)
    (h2 : stampLe b a = true) : a = b := by
  rw [stampLe_iff] at h1 h2
  have hw : a.wall = b.wall := by omega
  have hr1 : (tzRank a.tz).1 = (tzRank b.tz).1 := by omega
  have hr2 : (tzRank a.tz).2 = (tzRank b.tz).2 := by omega
  have hz : a.tz = b.tz := tzRank_inj (Prod.ext_iff.2 ⟨hr1, hr2⟩)
  cases a; cases b
  simp_all

theorem contains_eq_mem [BEq κ] [LawfulBEq κ] (l : List κ) (k : κ) :
    l.contains k = decide (k ∈ l) := by
  simp [List.contains, List.elem_eq_mem]

theorem dictInsert_fresh {α : Type} (m : List (Sym × α)) (k : Sym) (v : α)
    (h : k ∉ m.map Prod.fst) : dictInsert m k v = m ++ [(k, v)] := by
  unfold dictInsert
  rw [contains_eq_mem]
  simp [h]

theorem dictInsert_replace {α : Type} (m : List (Sym × α)) (k : Sym) (v : α)
    (h : k ∈ m.map Prod.fst) :
    dictInsert m k v = m.map (fun p => if p.1 = k then (k, v) else p) := by
  unfold dictInsert
  rw [contains_eq_mem]
  simp [h]

theorem dictInsert_keys {α : Type} (m : List (Sym × α)) (k : Sym) (v : α)
    (h : k ∈ m.map Prod.fst) :
    (dictInsert m k v).map Prod.fst = m.map Prod.fst := by
  rw [dictInsert_replace m k v h, List.map_map]
  refine List.map_congr_left ?_
  intro p _
  by_cases hp : p.1 = k
  · simp [hp]
  · simp [hp]

theorem dictInsert_nodupKeys {α : Type} (m : List (Sym × α)) (k : Sym) (v : α)
    (h : (m.map Prod.fst).Nodup) : ((dictInsert m k v).map Prod.fst).Nodup := by
  by_cases hk : k ∈ m.map Prod.fst
  · rw [dictInsert_keys m k v hk]; exact h
  · rw [dictInsert_fresh m k v hk]
    simp only [List.map_append, List.map_cons, List.map_nil]
    exact List.Nodup.append h (by simp) (by simpa [List.disjoint_right] using hk)

theorem lookupA_append_left {α : Type} (m₁ m₂ : List (Sym × α)) (k : Sym)
    (h : k ∉ m₁.map Prod.fst) : lookupA (m₁ ++ m₂) k = lookupA m₂ k := by
  unfold lookupA
  rw [List.find?_append]
  have h1 : m₁.find? (fun p => p.1 == k) = none := by
    rw [List.find?_eq_none]
    intro p hp
    simp only [beq_iff_eq]
    exact fun he => h (he ▸ List.mem_map_of_mem Prod.fst hp)
  rw [h1, Option.none_or]

theorem lookupA_cons_self {α : Type} (m : List (Sym × α)) (k : Sym) (v : α) :
    lookupA ((k, v) :: m) k = some v := by
  unfold lookupA
  rw [List.find?_cons]
  simp

theorem lookupA_cons_ne {α : Type} (m : List (Sym × α)) (k k2 : Sym) (v : α)
    (h : k2 ≠ k) : lookupA ((k2, v) :: m) k = lookupA m k := by
  unfold lookupA
  rw [List.find?_cons]
  have hb : ((k2, v).1 == k) = false := beq_eq_false_iff_ne.2 h
  rw [hb]

/-- Reading a key out of a map built pointwise over a duplicate-free list. -/
theorem lookupA_map_fun {α : Type} (f : Sym → α) (k : Sym) :
    ∀ l : List Sym, l.Nodup →
      lookupA (l.map (fun t => (t, f t))) k = if k ∈ l then some (f k) else none := by
  intro l
  induction l with
  | nil => intro _; simp [lookupA]
  | cons t rest ih =>
    intro hnd
    rcases List.nodup_cons.1 hnd with ⟨hni, hrest⟩
    by_cases hk : t = k
    · subst hk
      simp only [List.map_cons, lookupA_cons_self, List.mem_cons, true_or, if_pos]
    · rw [List.map_cons, lookupA_cons_ne _ _ _ _ hk, ih hrest]
      by_cases hkr : k ∈ rest
      · simp [hkr]
      · have hno : k ∉ t :: rest := by
          simp only [List.mem_cons]
          rintro (h | h)
          · exact hk h.symm
          · exact hkr h
        simp [hkr, hno]

theorem runAll_acc (fetch : Sym → Except String DF) :
    ∀ (l : List Sym) (st : DState) (tr : List Wr),
      l.foldl (fun acc t =>
        let r := _download_one fetch t acc.1
        (r.1, acc.2 ++ r.2)) (st, tr)
      = ((runAll fetch l st).1, tr ++ (runAll fetch l st).2) := by
  intro l
  induction l with
  | nil => intro st tr; simp [runAll]
  | cons t rest ih =>
    intro st tr
    have hR : runAll fetch (t :: rest) st
        = ((runAll fetch rest (_download_one fetch t st).1).1,
           (_download_one fetch t st).2
             ++ (runAll fetch rest (_download_one fetch t st).1).2) := by
      show (t :: rest).foldl _ (st, ([] : List Wr)) = _
      rw [List.foldl_cons]
      have h0 := ih (_download_one fetch t st).1 ([] ++ (_download_one fetch t st).2)
      simpa using h0
    rw [List.foldl_cons]
    have h1 := ih (_download_one fetch t st).1 (tr ++ (_download_one fetch t st).2)
    rw [hR]
    simpa [List.append_assoc] using h1

theorem runAll_cons (fetch : Sym → Except String DF) (t : Sym) (rest : List Sym)
    (st : DState) :
    runAll fetch (t :: rest) st
      = ((runAll fetch rest (_download_one fetch t st).1).1,
         (_download_one fetch t st).2
           ++ (runAll fetch rest (_download_one fetch t st).1).2) := by
  show (t :: rest).foldl _ (st, ([] : List Wr)) = _
  rw [List.foldl_cons]
  have h0 := runAll_acc fetch rest (_download_one fetch t st).1
    ([] ++ (_download_one fetch t st).2)
  simpa using h0

theorem runAll_trace (fetch : Sym → Except String DF) :
    ∀ (l : List Sym) (st : DState),
      (runAll fetch l st).2 = l.flatMap (traceOne fetch) := by
  intro l
  induction l with
  | nil => intro st; rfl
  | cons t rest ih =>
    intro st
    rw [runAll_cons, List.flatMap_cons, ih]
    unfold _download_one traceOne
    cases fetch t <;> rfl

theorem runAll_dfs (fetch : Sym → Except String DF) :
    ∀ (l : List Sym) (st : DState), (∀ t ∈ l, upperSym t = t) → l.Nodup →
      (∀ t ∈ l, t ∉ st.dfs.map Prod.fst) →
      (runAll fetch l st).1.dfs = st.dfs ++ l.map (fun t => (t, dlOutcome fetch t)) := by
  intro l
  induction l with
  | nil => intro st _ _ _; simp [runAll]
  | cons t rest ih =>
    intro st hup hnd hfresh
    rcases List.nodup_cons.1 hnd with ⟨hni, hrest⟩
    have hut : upperSym t = t := hup t (by simp)
    have hft : t ∉ st.dfs.map Prod.fst := hfresh t (by simp)
    rw [runAll_cons]
    have hstep : (_download_one fetch t st).1.dfs = st.dfs ++ [(t, dlOutcome fetch t)] := by
      unfold _download_one dlOutcome
      cases hf : fetch t
      · simp only
        rw [hut, dictInsert_fresh _ _ _ hft]
      · simp only
        rw [hut, dictInsert_fresh _ _ _ hft]
    have hkeys : (_download_one fetch t st).1.dfs.map Prod.fst
        = st.dfs.map Prod.fst ++ [t] := by
      rw [hstep]; simp
    rw [ih (_download_one fetch t st).1 (fun u hu => hup u (by simp [hu]))
      hrest ?_, hstep]
    · simp
    · intro u hu
      rw [hkeys]
      simp only [List.mem_append, List.mem_singleton]
      rintro (h | h)
      · exact hfresh u (by simp [hu]) h
      · exact hni (h ▸ hu)

theorem runAll_errors (fetch : Sym → Except String DF) :
    ∀ (l : List Sym) (st : DState), (∀ t ∈ l, upperSym t = t) → l.Nodup →
      (∀ t ∈ l, t ∉ st.errors.map Prod.fst) →
      (runAll fetch l st).1.errors
        = st.errors ++ l.filterMap (fun t => (fetchErr fetch t).map (fun e => (t, e))) := by
  intro l
  induction l with
  | nil => intro st _ _ _; simp [runAll]
  | cons t rest ih =>
    intro st hup hnd hfresh
    rcases List.nodup_cons.1 hnd with ⟨hni, hrest⟩
    have hut : upperSym t = t := hup t (by simp)
    have hft : t ∉ st.errors.map Prod.fst := hfresh t (by simp)
    rw [runAll_cons]
    have hstep : (_download_one fetch t st).1.errors
        = st.errors ++ ((fetchErr fetch t).map (fun e => (t, e))).toList := by
      unfold _download_one fetchErr
      cases hf : fetch t
      · simp only
        rw [hut, dictInsert_fresh _ _ _ hft]
        rfl
      · simp
    have hkeys : ∀ u ∈ rest, u ∉ (_download_one fetch t st).1.errors.map Prod.fst := by
      intro u hu
      rw [hstep]
      simp only [List.map_append, List.mem_append]
      rintro (h | h)
      · exact hfresh u (by simp [hu]) h
      · cases hf : fetchErr fetch t <;> rw [hf] at h <;> simp at h
        exact hni (h ▸ hu)
    rw [ih (_download_one fetch t st).1 (fun u hu => hup u (by simp [hu])) hrest hkeys,
      hstep, List.filterMap_cons]
    cases hf : fetchErr fetch t
    · simp [hf]
    · simp [hf]

theorem traceOne_count_dfs (fetch : Sym → Except String DF) (k t : Sym)
    (hut : upperSym t = t) :
    (traceOne fetch t).countP (isDfsW k) = if t = k then 1 else 0 := by
  unfold traceOne
  cases fetch t <;> rw [hut] <;> by_cases h : t = k <;>
    simp [List.countP_cons, List.countP_nil, isDfsW, isErrW, isTbW, h]

theorem traceOne_count_err (fetch : Sym → Except String DF) (k t : Sym)
    (hut : upperSym t = t) :
    (traceOne fetch t).countP (isErrW k)
      = if t = k ∧ fetchFails fetch t = true then 1 else 0 := by
  unfold traceOne fetchFails
  cases fetch t <;> rw [hut] <;> by_cases h : t = k <;>
    simp [List.countP_cons, List.countP_nil, isDfsW, isErrW, isTbW, h]

theorem traceOne_count_tb (fetch : Sym → Except String DF) (k t : Sym)
    (hut : upperSym t = t) :
    (traceOne fetch t).countP (isTbW k)
      = if t = k ∧ fetchFails fetch t = true then 1 else 0 := by
  unfold traceOne fetchFails
  cases fetch t <;> rw [hut] <;> by_cases h : t = k <;>
    simp [List.countP_cons, List.countP_nil, isDfsW, isErrW, isTbW, h]

theorem trace_counts (fetch : Sym → Except String DF) (k : Sym) :
    ∀ l : List Sym, (∀ t ∈ l, upperSym t = t) → l.Nodup →
      ((l.flatMap (traceOne fetch)).countP (isDfsW k) = if k ∈ l then 1 else 0) ∧
      ((l.flatMap (traceOne fetch)).countP (isErrW k)
        = if k ∈ l ∧ fetchFails fetch k = true then 1 else 0) ∧
      ((l.flatMap (traceOne fetch)).countP (isTbW k)
        = if k ∈ l ∧ fetchFails fetch k = true then 1 else 0) := by
  intro l
  induction l with
  | nil => intro _ _; simp
  | cons t rest ih =>
    intro hup hnd
    rcases List.nodup_cons.1 hnd with ⟨hni, hrest⟩
    have hut : upperSym t = t := hup t (by simp)
    rcases ih (fun u hu => hup u (by simp [hu])) hrest with ⟨ih1, ih2, ih3⟩
    rw [List.flatMap_cons]
    have hmem : ∀ h : ¬ t = k, (k ∈ t :: rest) ↔ (k ∈ rest) := by
      intro h
      simp only [List.mem_cons]
      constructor
      · rintro (hh | hh)
        · exact absurd hh.symm h
        · exact hh
      · intro hh
        exact Or.inr hh
    refine ⟨?_, ?_, ?_⟩
    · rw [List.countP_append, ih1, traceOne_count_dfs fetch k t hut]
      by_cases h : t = k
      · subst h
        simp [hni]
      · simp [h, hmem h]
    · rw [List.countP_append, ih2, traceOne_count_err fetch k t hut]
      by_cases h : t = k
      · subst h
        simp [hni]
      · simp [h, hmem h]
    · rw [List.countP_append, ih3, traceOne_count_tb fetch k t hut]
      by_cases h : t = k
      · subst h
        simp [hni]
      · simp [h, hmem h]

theorem filterMap_err_single (fetch : Sym → Except String DF) (f : Sym) (e : String) :
    ∀ l : List Sym, l.Nodup → f ∈ l → fetchErr fetch f = some e →
      (∀ s ∈ l, s ≠ f → fetchErr fetch s = none) →
      l.filterMap (fun t => (fetchErr fetch t).map (fun er => (t, er))) = [(f, e)] := by
  intro l
  induction l with
  | nil => intro _ hf; exact absurd hf (by simp)
  | cons t rest ih =>
    intro hnd hf hfe hok
    rcases List.nodup_cons.1 hnd with ⟨hni, hrest⟩
    rw [List.filterMap_cons]
    by_cases ht : t = f
    · subst ht
      rw [hfe]
      have hrest0 : rest.filterMap (fun t => (fetchErr fetch t).map (fun er => (t, er))) = [] := by
        rw [List.filterMap_eq_nil_iff]
        intro s hs
        have hne : s ≠ t := fun h => hni (h ▸ hs)
        rw [hok s (by simp [hs]) hne]
        rfl
      rw [hrest0]
      rfl
    · have hfr : f ∈ rest := by
        rcases List.mem_cons.1 hf with h | h
        · exact absurd h.symm ht
        · exact h
      rw [hok t (by simp) ht]
      exact ih hrest hfr hfe (fun s hs => hok s (by simp [hs]))

theorem _download_one_dfs (fetch : Sym → Except String DF) (t : Sym) (st : DState) :
    (_download_one fetch t st).1.dfs
      = dictInsert st.dfs (upperSym t) (dlOutcome fetch t) := by
  unfold _download_one dlOutcome
  cases fetch t <;> rfl

theorem runAll_nodupKeys (fetch : Sym → Except String DF) :
    ∀ (l : List Sym) (st : DState), (st.dfs.map Prod.fst).Nodup →
      ((runAll fetch l st).1.dfs.map Prod.fst).Nodup := by
  intro l
  induction l with
  | nil => intro st h; exact h
  | cons t rest ih =>
    intro st h
    rw [runAll_cons]
    refine ih _ ?_
    rw [_download_one_dfs]
    exact dictInsert_nodupKeys _ _ _ h

theorem init_run_dfs (fetch : Sym → Except String DF) (l : List Sym)
    (hup : ∀ t ∈ l, upperSym t = t) (hnd : l.Nodup) :
    (runAll fetch l initState).1.dfs = l.map (fun t => (t, dlOutcome fetch t)) :=
  runAll_dfs fetch l initState hup hnd (fun _ _ => by simp [initState])

theorem init_run_errors (fetch : Sym → Except String DF) (l : List Sym)
    (hup : ∀ t ∈ l, upperSym t = t) (hnd : l.Nodup) :
    (runAll fetch l initState).1.errors
      = l.filterMap (fun t => (fetchErr fetch t).map (fun e => (t, e))) :=
  runAll_errors fetch l initState hup hnd (fun _ _ => by simp [initState])

theorem hasDupIndex_false (df : DF) (h : (dfIndex df).Nodup) : hasDupIndex df = false := by
  simp [hasDupIndex, h]

theorem concatFails_false_of_nodup (dfs : List (Sym × DF))
    (h : ∀ p ∈ dfs, (dfIndex p.2).Nodup) : concatFails dfs = false := by
  unfold concatFails
  have hany : dfs.any (fun p => hasDupIndex p.2) = false := by
    rw [List.any_eq_false]
    intro p hp
    rw [hasDupIndex_false p.2 (h p hp)]
    simp
  rw [hany, Bool.false_and]

theorem allIdxEq_iff (dfs : List (Sym × DF)) :
    allIdxEq dfs = true ↔ ∀ p ∈ dfs, ∀ q ∈ dfs, dfIndex p.2 = dfIndex q.2 := by
  cases dfs with
  | nil => simp [allIdxEq]
  | cons h rest =>
    simp only [allIdxEq, List.all_eq_true, decide_eq_true_eq]
    constructor
    · intro hall p hp q hq
      have hp2 : dfIndex p.2 = dfIndex h.2 := by
        rcases List.mem_cons.1 hp with h1 | h1
        · rw [h1]
        · exact hall p h1
      have hq2 : dfIndex q.2 = dfIndex h.2 := by
        rcases List.mem_cons.1 hq with h1 | h1
        · rw [h1]
        · exact hall q h1
      rw [hp2, hq2]
    · intro hall q hq
      exact hall q (by simp [hq]) h (by simp)

theorem applyIgnoreTz_keys (b : Bool) (dfs : List (Sym × DF)) :
    (applyIgnoreTz b dfs).map Prod.fst = dfs.map Prod.fst := by
  unfold applyIgnoreTz
  cases b
  · rfl
  · rw [if_pos rfl, List.map_map]
    refine List.map_congr_left ?_
    intro p _
    by_cases h : p.2.rows.length > 0 <;> simp [h]

/-- C10: with ignore_tz None, download defaults ignore_tz to False exactly
when the interval string with its first character removed equals m or h; so
1m, 2m, 5m and 1h keep timezones while 15m, 30m, 60m and 90m strip them,
like the daily-and-above intervals. -/
theorem C10_ignore_tz_default :
    (∀ interval : String,
      resolveIgnoreTz none interval
        = !(interval.drop 1 == "m" || interval.drop 1 == "h")) ∧
    resolveIgnoreTz none "1m" = false ∧ resolveIgnoreTz none "2m" = false ∧
    resolveIgnoreTz none "5m" = false ∧ resolveIgnoreTz none "1h" = false ∧
    resolveIgnoreTz none "15m" = true ∧ resolveIgnoreTz none "30m" = true ∧
    resolveIgnoreTz none "60m" = true ∧ resolveIgnoreTz none "90m" = true ∧
    resolveIgnoreTz none "1d" = true ∧ resolveIgnoreTz none "1wk" = true ∧
    resolveIgnoreTz none "1mo" = true := by
  refine ⟨?_, by decide, by decide, by decide, by decide, by decide, by decide,
    by decide, by decide, by decide, by decide, by decide⟩
  intro interval
  unfold resolveIgnoreTz
  by_cases h : interval.drop 1 = "m" ∨ interval.drop 1 = "h"
  · rw [if_pos h]
    rcases h with h | h <;> simp [h]
  · rw [if_neg h]
    push_neg at h
    simp [beq_eq_false_iff_ne.2 h.1, beq_eq_false_iff_ne.2 h.2]

/-- C8: download dispatches exactly one fetch per distinct uppercased
symbol: the dispatch list is duplicate-free, a symbol appears in it once
exactly when some input ticker uppercases to it, and the result map holds
exactly one key per dispatched symbol. -/
theorem C8_dedup_dispatch (tickersIn : List String)
    (fetch : Sym → Except String DF) (s : Sym) :
    (normalize tickersIn).Nodup ∧
    ((normalize tickersIn).count s
      = if s ∈ tickersIn.map upperSym then 1 else 0) ∧
    ((loopState fetch false [] tickersIn).dfs.map Prod.fst = normalize tickersIn) := by
  refine ⟨normalize_nodup _, List.count_dedup _ _, ?_⟩
  show ((runAll fetch (normalize tickersIn) initState).1.dfs.map Prod.fst = _)
  rw [init_run_dfs fetch _ (fun t ht => mem_normalize_upper ht) (normalize_nodup _)]
  rw [List.map_map]
  have hpt : ∀ t ∈ normalize tickersIn,
      (Prod.fst ∘ fun u : Sym => (u, dlOutcome fetch u)) t = id t := fun t _ => rfl
  rw [List.map_congr_left hpt, List.map_id]

/-- C9: within one download call the shared result, error and traceback
collections are write-once per key: a dispatched symbol receives exactly one
result-map write (its fetched series or the empty placeholder) and at most
one error and one traceback write, and an undispatched key receives none. -/
theorem C9_write_once (fetch : Sym → Except String DF) (tickersIn : List String)
    (k : Sym) :
    ((runAll fetch (normalize tickersIn) initState).2.countP (isDfsW k)
      = if k ∈ normalize tickersIn then 1 else 0) ∧
    ((runAll fetch (normalize tickersIn) initState).2.countP (isErrW k) ≤ 1) ∧
    ((runAll fetch (normalize tickersIn) initState).2.countP (isTbW k) ≤ 1) ∧
    (k ∈ normalize tickersIn →
      lookupA (runAll fetch (normalize tickersIn) initState).1.dfs k
        = some (dlOutcome fetch k)) ∧
    (k ∉ normalize tickersIn →
      lookupA (runAll fetch (normalize tickersIn) initState).1.dfs k = none) := by
  have hup : ∀ t ∈ normalize tickersIn, upperSym t = t :=
    fun t ht => mem_normalize_upper ht
  have hnd := normalize_nodup tickersIn
  have htr := runAll_trace fetch (normalize tickersIn) initState
  have hcounts := trace_counts fetch k (normalize tickersIn) hup hnd
  have hdfs := init_run_dfs fetch (normalize tickersIn) hup hnd
  refine ⟨?_, ?_, ?_, ?_, ?_⟩
  · rw [htr]; exact hcounts.1
  · rw [htr, hcounts.2.1]
    split_ifs <;> omega
  · rw [htr, hcounts.2.2]
    split_ifs <;> omega
  · intro hk
    rw [hdfs, lookupA_map_fun _ _ _ hnd, if_pos hk]
  · intro hk
    rw [hdfs, lookupA_map_fun _ _ _ hnd, if_neg hk]

/-- Witness for C9 at a concrete input: two case-variant tickers, a failing
fetch; the single normalized key gets exactly one result write and carries
the empty placeholder. -/
theorem C9_write_once_witness :
    ((runAll fetchBoom (normalize ["aapl", "AAPL"]) initState).2.countP (isDfsW "AAPL")
      = 1) ∧
    ((runAll fetchBoom (normalize ["aapl", "AAPL"]) initState).2.countP (isErrW "AAPL")
      ≤ 1) ∧
    (lookupA (runAll fetchBoom (normalize ["aapl", "AAPL"]) initState).1.dfs "AAPL"
      = some empty_df) := by
  have h := C9_write_once fetchBoom ["aapl", "AAPL"] "AAPL"
  refine ⟨?_, h.2.1, ?_⟩
  · have h1 := h.1
    rwa [if_pos (by decide)] at h1
  · have h4 := h.2.2.2.1 (by decide)
    exact h4

/-- C1: when exactly one symbol of a batch fails, download does not raise:
the failing symbol's result-map entry is the empty placeholder, its error is
recorded, every other symbol's result is its own fetched series, the shared
error map holds exactly the one failure, and download still returns a table
together with that error map. -/
theorem C1_failure_isolation (fetch : Sym → Except String DF) (ts : List Sym)
    (f : Sym) (e : String) (g : Sym → DF)
    (hnd : ts.Nodup) (hup : ∀ t ∈ ts, upperSym t = t) (hf : f ∈ ts)
    (hfe : fetch f = .error e)
    (hok : ∀ s ∈ ts, s ≠ f → fetch s = .ok (g s)) :
    lookupA (loopState fetch false [] ts).dfs f = some empty_df ∧
    lookupA (loopState fetch false [] ts).errors f = some e ∧
    (∀ s ∈ ts, s ≠ f → lookupA (loopState fetch false [] ts).dfs s = some (g s)) ∧
    (loopState fetch false [] ts).errors = [(f, e)] ∧
    (∀ igtz interval gb mli,
      (download fetch ts igtz interval false [] gb mli).2 = [(f, e)]) := by
  have hself : normalize ts = ts := normalize_self hup hnd
  have hdfs : (loopState fetch false [] ts).dfs
      = ts.map (fun t => (t, dlOutcome fetch t)) := by
    show (runAll fetch (normalize ts) initState).1.dfs = _
    rw [hself]
    exact init_run_dfs fetch ts hup hnd
  have herr : (loopState fetch false [] ts).errors = [(f, e)] := by
    show (runAll fetch (normalize ts) initState).1.errors = _
    rw [hself, init_run_errors fetch ts hup hnd]
    exact filterMap_err_single fetch f e ts hnd hf
      (by unfold fetchErr; rw [hfe])
      (fun s hs hsne => by unfold fetchErr; rw [hok s hs hsne])
  refine ⟨?_, ?_, ?_, herr, ?_⟩
  · rw [hdfs, lookupA_map_fun _ _ _ hnd, if_pos hf]
    unfold dlOutcome
    rw [hfe]
  · rw [herr, lookupA_cons_self]
  · intro s hs hsne
    rw [hdfs, lookupA_map_fun _ _ _ hnd, if_pos hs]
    unfold dlOutcome
    rw [hok s hs hsne]
  · intro igtz interval gb mli
    show (loopState fetch false [] ts).errors = [(f, e)]
    exact herr

/-- Witness for C1 at a concrete input: AAPL succeeds, INTC raises. -/
theorem C1_failure_isolation_witness :
    lookupA (loopState fetchOneBad false [] ["AAPL", "INTC"]).dfs "INTC"
      = some empty_df ∧
    lookupA (loopState fetchOneBad false [] ["AAPL", "INTC"]).dfs "AAPL"
      = some dfConcA ∧
    (loopState fetchOneBad false [] ["AAPL", "INTC"]).errors
      = [("INTC", "HTTPError")] ∧
    (download fetchOneBad ["AAPL", "INTC"] none "1d" false [] .ticker true).2
      = [("INTC", "HTTPError")] := by
  have h := C1_failure_isolation fetchOneBad ["AAPL", "INTC"] "INTC" "HTTPError"
    (fun _ => dfConcA) (by decide) (by decide) (by decide) (by rfl)
    (fun s hs hne => by
      have : s = "AAPL" := by
        rcases List.mem_cons.1 hs with h1 | h1
        · exact h1
        · exact absurd (by simpa using h1) hne
      rw [this]
      rfl)
  exact ⟨h.1, h.2.2.1 "AAPL" (by decide) (by decide), h.2.2.2.1,
    h.2.2.2.2 none "1d" .ticker true⟩

/-- C7: merging a dividend at 2023-09-14 10:00 (minute 2040) against
30-minute bars that all lie on 2023-09-13 (minutes 0 to 960) produces a new
event-only row at the dividend's own timestamp carrying its amount, keeps
every bar row unchanged, and does not attach the dividend to the last bar;
the merge is total, so no exception is raised. -/
theorem C7_event_only_row :
    (⟨2040, none, 1⟩ : MRow) ∈ safe_merge_dfs 30 c7bars [(2040, 1)] ∧
    (safe_merge_dfs 30 c7bars [(2040, 1)]).length = c7bars.length + 1 ∧
    (∀ b ∈ c7bars, (⟨b.1, some b.2, 0⟩ : MRow) ∈ safe_merge_dfs 30 c7bars [(2040, 1)]) ∧
    (∀ r ∈ safe_merge_dfs 30 c7bars [(2040, 1)], r.ts = 960 → r.div = 0) := by
  decide

/-- C5 counterexample: with ignore_tz defaulted to True, a symbol fetched
with zone-aware timestamps reaches the concatenation with zone-naive
timestamps: the tz-stripping pass runs before the union/sort step, not after
it as the claim states. -/
theorem C5_tz_counterexample :
    resolveIgnoreTz none "1d" = true ∧
    (loopState fetchAware false [] ["TLV"]).dfs = [("TLV", dfAware)] ∧
    concatInput fetchAware false [] ["TLV"] none "1d"
      = [("TLV", ⟨["Close"], [(⟨600, none⟩, [some 7])]⟩)] := by
  decide

/-- C5 corrected: the conversion to zone-naive wall clock happens before the
concatenation, not after it: whenever ignore_tz resolves to True, every
timestamp the concatenation step receives is zone-naive (the returned index
is only re-coerced to UTC-aware afterwards, see C6). -/
theorem C5_tz_amended (fetch : Sym → Except String DF) (tickersIn : List String)
    (order : List Sym) (threads : Bool) (igtz : Option Bool) (interval : String)
    (h : resolveIgnoreTz igtz interval = true) :
    ∀ p ∈ concatInput fetch threads order tickersIn igtz interval,
      ∀ r ∈ p.2.rows, r.1.tz = none := by
  intro p hp r hr
  unfold concatInput at hp
  rw [h] at hp
  unfold applyIgnoreTz at hp
  rw [if_pos rfl] at hp
  rcases List.mem_map.1 hp with ⟨q, _, hqe⟩
  by_cases hlen : q.2.rows.length > 0
  · rw [if_pos hlen] at hqe
    rw [← hqe] at hr
    simp only at hr
    rcases List.mem_map.1 hr with ⟨r0, _, hr0⟩
    rw [← hr0]
  · rw [if_neg hlen] at hqe
    rw [← hqe] at hr
    have hq0 : q.2.rows = [] := List.length_eq_zero.1 (by omega)
    rw [hq0] at hr
    exact absurd hr (by simp)

/-- Witness for C5 corrected at a concrete input. -/
theorem C5_tz_amended_witness :
    ("TLV", (⟨["Close"], [(⟨600, none⟩, [some 7])]⟩ : DF))
        ∈ concatInput fetchAware false [] ["TLV"] none "1d" ∧
    (⟨600, none⟩ : Stamp).tz = none := by
  refine ⟨by decide, ?_⟩
  exact C5_tz_amended fetchAware ["TLV"] [] false none "1d" (by decide)
    ("TLV", ⟨["Close"], [(⟨600, none⟩, [some 7])]⟩) (by decide)
    (⟨600, none⟩, [some 7]) (by decide)

/-- C6 counterexample: with zone-naive output requested (ignore_tz resolves
to True), the returned table's row key is not naive: line 199 re-coerces the
index to UTC-aware timestamps. -/
theorem C6_rowkey_counterexample :
    resolveIgnoreTz none "1d" = true ∧
    (download fetchAware ["TLV"] none "1d" false [] .ticker true).1.index
      = [⟨600, some 0⟩] ∧
    (∀ s ∈ (download fetchAware ["TLV"] none "1d" false [] .ticker true).1.index,
      s.tz ≠ none) := by
  decide

theorem map_fst_pair {α β : Type} (g : α → β) (l : List (Sym × α)) :
    (l.map (fun p => (p.1, g p.2))).map Prod.fst = l.map Prod.fst := by
  rw [List.map_map]
  exact List.map_congr_left (fun p _ => rfl)

theorem realign_fold (g : DF → DF) :
    ∀ (post pre : List (Sym × DF)),
      ((pre ++ post).map Prod.fst).Nodup →
      (post.map Prod.fst).foldl (fun m key =>
        match lookupA m key with
        | none => m
        | some df => dictInsert m key (g df))
        (pre.map (fun p => (p.1, g p.2)) ++ post)
      = (pre ++ post).map (fun p => (p.1, g p.2)) := by
  intro post
  induction post with
  | nil =>
    intro pre _
    simp
  | cons q rest ih =>
    intro pre hnd
    have hkeys : ((pre ++ q :: rest).map Prod.fst).Nodup := hnd
    have hqpre : q.1 ∉ pre.map Prod.fst := by
      intro hmem
      have hh : ((pre.map Prod.fst) ++ ((q :: rest).map Prod.fst)).Nodup := by
        rwa [← List.map_append]
      have hdisj := (List.nodup_append.1 hh).2.2
      exact absurd (List.mem_cons_self q.1 _) (hdisj hmem)
    have hqrest : q.1 ∉ rest.map Prod.fst := by
      intro hmem
      have h2 : ((q :: rest).map Prod.fst).Nodup := by
        have := (List.nodup_append.1 (by rwa [List.map_append] at hnd)).2.1
        exact this
      rw [List.map_cons, List.nodup_cons] at h2
      exact h2.1 hmem
    rw [List.map_cons, List.foldl_cons]
    have hlook : lookupA (pre.map (fun p => (p.1, g p.2)) ++ q :: rest) q.1
        = some q.2 := by
      rw [lookupA_append_left _ _ _ (by rwa [map_fst_pair])]
      have : (q.1, q.2) = q := rfl
      rw [← this, lookupA_cons_self]
    rw [hlook]
    have hin : q.1 ∈ (pre.map (fun p => (p.1, g p.2)) ++ q :: rest).map Prod.fst := by
      rw [List.map_append, map_fst_pair]
      simp
    have hred : (match some q.2 with
        | none => pre.map (fun p => (p.1, g p.2)) ++ q :: rest
        | some df => dictInsert (pre.map (fun p => (p.1, g p.2)) ++ q :: rest) q.1 (g df))
      = dictInsert (pre.map (fun p => (p.1, g p.2)) ++ q :: rest) q.1 (g q.2) := rfl
    rw [hred, dictInsert_replace _ _ _ hin]
    have hrw : (pre.map (fun p => (p.1, g p.2)) ++ q :: rest).map
        (fun p => if p.1 = q.1 then (q.1, g q.2) else p)
        = (pre ++ [q]).map (fun p => (p.1, g p.2)) ++ rest := by
      rw [List.map_append, List.map_map, List.map_cons]
      have h1 : pre.map ((fun p => if p.1 = q.1 then (q.1, g q.2) else p)
            ∘ fun p : Sym × DF => (p.1, g p.2))
          = pre.map (fun p => (p.1, g p.2)) := by
        refine List.map_congr_left ?_
        intro p hp
        have hne : p.1 ≠ q.1 := fun he => hqpre (he ▸ List.mem_map_of_mem Prod.fst hp)
        simp only [Function.comp_apply, hne, if_neg, if_false]
      have h2 : (if q.1 = q.1 then (q.1, g q.2) else q) = (q.1, g q.2) := by
        rw [if_pos rfl]
      have h3 : rest.map (fun p => if p.1 = q.1 then (q.1, g q.2) else p) = rest := by
        have : ∀ p ∈ rest, (if p.1 = q.1 then (q.1, g q.2) else p) = id p := by
          intro p hp
          have hne : p.1 ≠ q.1 := fun he => hqrest (he ▸ List.mem_map_of_mem Prod.fst hp)
          simp only [hne, if_neg, if_false, id]
        rw [List.map_congr_left this, List.map_id]
      rw [h1, h2, h3]
      simp
    rw [hrw]
    have hnd2 : (((pre ++ [q]) ++ rest).map Prod.fst).Nodup := by
      rwa [List.append_assoc, List.singleton_append]
    rw [ih (pre ++ [q]) hnd2]
    rw [List.append_assoc, List.singleton_append]

theorem _realign_dfs_eq (dfs : List (Sym × DF))
    (hnd : (dfs.map Prod.fst).Nodup) : _realign_dfs dfs = realignBySpec dfs := by
  have h := realign_fold (realignOne (refIndex dfs)) dfs [] (by simpa using hnd)
  simpa using h

theorem realign_keys (dfs : List (Sym × DF)) (hnd : (dfs.map Prod.fst).Nodup) :
    (_realign_dfs dfs).map Prod.fst = dfs.map Prod.fst := by
  rw [_realign_dfs_eq dfs hnd]
  exact map_fst_pair _ _

theorem mem_dedupKeepLast_sub :
    ∀ (rows : List (Stamp × List (Option Int))) (r : Stamp × List (Option Int)),
      r ∈ dedupKeepLast rows → r ∈ rows := by
  intro rows
  induction rows with
  | nil => intro r h; exact absurd h (by simp [dedupKeepLast])
  | cons r0 rest ih =>
    intro r h
    unfold dedupKeepLast at h
    by_cases hc : rest.any (fun x => decide (x.1 = r0.1))
    · rw [if_pos hc] at h
      exact List.mem_cons_of_mem _ (ih r h)
    · rw [if_neg hc] at h
      rcases List.mem_cons.1 h with h1 | h1
      · exact h1 ▸ List.mem_cons_self _ _
      · exact List.mem_cons_of_mem _ (ih r h1)

theorem dedupKeepLast_nodup :
    ∀ rows : List (Stamp × List (Option Int)),
      ((dedupKeepLast rows).map Prod.fst).Nodup := by
  intro rows
  induction rows with
  | nil => simp [dedupKeepLast]
  | cons r0 rest ih =>
    unfold dedupKeepLast
    by_cases hc : rest.any (fun x => decide (x.1 = r0.1))
    · rw [if_pos hc]
      exact ih
    · rw [if_neg hc]
      rw [List.map_cons, List.nodup_cons]
      refine ⟨?_, ih⟩
      intro hmem
      rcases List.mem_map.1 hmem with ⟨x, hx, hxe⟩
      have hxr : x ∈ rest := mem_dedupKeepLast_sub rest x hx
      have : rest.any (fun x => decide (x.1 = r0.1)) = true :=
        List.any_eq_true.2 ⟨x, hxr, by simp [hxe]⟩
      exact hc this

theorem realignOne_nodup (idx : Option (List Stamp)) (df : DF) :
    (dfIndex (realignOne idx df)).Nodup := by
  unfold realignOne dfIndex
  exact dedupKeepLast_nodup _

/-- C3 counterexample: on a frame map where the first concatenation fails,
the code's realignment is not reindex-then-drop-duplicate-timestamps as the
claim states: drop_duplicates() also removes a row whose values repeat an
earlier row, and a frame with duplicated timestamps differing from the
reference index raises inside the reindex and takes the append fallback
instead of being exactly reindexed. -/
theorem C3_realign_counterexample :
    concatFails exDfs = true ∧ _realign_dfs exDfs ≠ realignClaim exDfs := by
  decide

/-- C3 corrected: the realignment picks the first frame with the greatest
row count as the reference; a frame whose index already equals the reference
index is kept as is, duplicate labels included (the reindex equality fast
path, which the reference frame itself always takes), a frame with unique
timestamps is exactly reindexed onto the reference (no interpolation), and
in both cases rows whose whole value tuple repeats an earlier row are then
dropped keeping the first; only a duplicate-timestamped frame whose index
differs from the reference raises inside the reindex and instead appends its
fully valued rows to an all-missing copy of the reference; finally duplicate
timestamps are dropped keeping the last occurrence, so the retried
concatenation cannot fail again, and download retries the concatenation on
the realigned frames. -/
theorem C3_realign_amended (dfs : List (Sym × DF))
    (hnd : (dfs.map Prod.fst).Nodup) :
    _realign_dfs dfs = realignBySpec dfs ∧
    (∀ p ∈ _realign_dfs dfs, (dfIndex p.2).Nodup) ∧
    concatFails (_realign_dfs dfs) = false ∧
    (concatFails dfs = true → concatStage dfs = concatDFS (_realign_dfs dfs)) := by
  have heq := _realign_dfs_eq dfs hnd
  have hnodup : ∀ p ∈ _realign_dfs dfs, (dfIndex p.2).Nodup := by
    intro p hp
    rw [heq] at hp
    rcases List.mem_map.1 hp with ⟨q, _, hqe⟩
    rw [← hqe]
    exact realignOne_nodup _ _
  refine ⟨heq, hnodup, concatFails_false_of_nodup _ hnodup, ?_⟩
  intro hfail
  unfold concatStage
  rw [if_pos hfail]

/-- Witness for C3 corrected at the concrete failing frame map. -/
theorem C3_realign_amended_witness :
    _realign_dfs exDfs = realignBySpec exDfs ∧
    concatFails (_realign_dfs exDfs) = false ∧
    concatStage exDfs = concatDFS (_realign_dfs exDfs) := by
  have h := C3_realign_amended exDfs (by decide)
  exact ⟨h.1, h.2.2.1, h.2.2.2 (by decide)⟩

theorem toUtc_tz (s : Stamp) : (toUtc s).tz = some 0 := by
  unfold toUtc
  cases s.tz <;> rfl

theorem download_eq (fetch : Sym → Except String DF) (tickersIn : List String)
    (igtz : Option Bool) (interval : String) (threads : Bool) (order : List Sym)
    (gb : GroupBy) (mli : Bool) :
    download fetch tickersIn igtz interval threads order gb mli
      = (applyDropLevel mli (normalize tickersIn).length gb
          (applyGroupBy gb
            ⟨(concatStage (concatInput fetch threads order tickersIn igtz interval)).index.map
               toUtc,
             (concatStage (concatInput fetch threads order tickersIn igtz interval)).cols⟩),
         (loopState fetch threads order tickersIn).errors) := rfl

theorem applyGroupBy_index (gb : GroupBy) (t : Table) :
    (applyGroupBy gb t).index = t.index := by
  cases gb <;> rfl

theorem applyDropLevel_index (mli : Bool) (n : Nat) (gb : GroupBy) (t : Table) :
    (applyDropLevel mli n gb t).index = t.index := by
  unfold applyDropLevel
  split <;> rfl

theorem applyDropLevel_mli (n : Nat) (gb : GroupBy) (t : Table) :
    applyDropLevel true n gb t = t := rfl

theorem blockColsOn_key (u : List Stamp) (p : Sym × DF)
    (c : ColKey × List (Option Int)) (hc : c ∈ blockColsOn u p) :
    ∃ fld, c.1 = [p.1, fld] := by
  unfold blockColsOn at hc
  rcases List.mem_map.1 hc with ⟨q, _, hqe⟩
  exact ⟨q.2, by rw [← hqe]⟩

theorem blockColsPos_key (p : Sym × DF) (c : ColKey × List (Option Int))
    (hc : c ∈ blockColsPos p) : ∃ fld, c.1 = [p.1, fld] := by
  unfold blockColsPos at hc
  rcases List.mem_map.1 hc with ⟨q, _, hqe⟩
  exact ⟨q.2, by rw [← hqe]⟩

theorem concatDFS_key (dfs : List (Sym × DF)) (c : ColKey × List (Option Int))
    (hc : c ∈ (concatDFS dfs).cols) :
    ∃ s fld, c.1 = [s, fld] ∧ s ∈ dfs.map Prod.fst := by
  unfold concatDFS at hc
  by_cases hall : allIdxEq dfs = true
  · rw [if_pos hall] at hc
    simp only at hc
    rcases List.mem_flatten.1 hc with ⟨blk, hblk, hcb⟩
    rcases List.mem_map.1 hblk with ⟨p, hp, hpe⟩
    rcases blockColsPos_key p c (hpe ▸ hcb) with ⟨fld, hf⟩
    exact ⟨p.1, fld, hf, List.mem_map_of_mem Prod.fst hp⟩
  · rw [if_neg hall] at hc
    simp only at hc
    rcases List.mem_flatten.1 hc with ⟨blk, hblk, hcb⟩
    rcases List.mem_map.1 hblk with ⟨p, hp, hpe⟩
    rcases blockColsOn_key _ p c (hpe ▸ hcb) with ⟨fld, hf⟩
    exact ⟨p.1, fld, hf, List.mem_map_of_mem Prod.fst hp⟩

theorem loopState_nodupKeys (fetch : Sym → Except String DF) (threads : Bool)
    (order : List Sym) (tickersIn : List String) :
    ((loopState fetch threads order tickersIn).dfs.map Prod.fst).Nodup :=
  runAll_nodupKeys fetch _ initState (by simp [initState])

theorem concatStage_key (fetch : Sym → Except String DF) (threads : Bool)
    (order : List Sym) (tickersIn : List String) (igtz : Option Bool)
    (interval : String) (c : ColKey × List (Option Int))
    (hc : c ∈ (concatStage (concatInput fetch threads order tickersIn igtz interval)).cols) :
    ∃ s fld, c.1 = [s, fld] ∧
      s ∈ (loopState fetch threads order tickersIn).dfs.map Prod.fst := by
  have hkeys : (concatInput fetch threads order tickersIn igtz interval).map Prod.fst
      = (loopState fetch threads order tickersIn).dfs.map Prod.fst := by
    unfold concatInput
    exact applyIgnoreTz_keys _ _
  unfold concatStage at hc
  by_cases hf : concatFails (concatInput fetch threads order tickersIn igtz interval) = true
  · rw [if_pos hf] at hc
    rcases concatDFS_key _ c hc with ⟨s, fld, he, hs⟩
    refine ⟨s, fld, he, ?_⟩
    rwa [realign_keys _ (by rw [hkeys]; exact loopState_nodupKeys fetch threads order tickersIn),
      hkeys] at hs
  · rw [if_neg hf] at hc
    rcases concatDFS_key _ c hc with ⟨s, fld, he, hs⟩
    exact ⟨s, fld, he, hkeys ▸ hs⟩

/-- C6 corrected: the returned table's row key is always re-coerced to a
zone-aware UTC timestamp, whether or not the caller requested zone-naive
output; with a multi-level index the column key pairs the symbol with the
field name: symbol over field under group_by ticker, field over symbol
under the default group_by column. -/
theorem C6_rowkey_amended (fetch : Sym → Except String DF) (tickersIn : List String)
    (igtz : Option Bool) (interval : String) (threads : Bool) (order : List Sym)
    (gb : GroupBy) (mli : Bool) :
    (∀ s ∈ (download fetch tickersIn igtz interval threads order gb mli).1.index,
      s.tz = some 0) ∧
    (gb = GroupBy.ticker → mli = true →
      ∀ c ∈ (download fetch tickersIn igtz interval threads order gb mli).1.cols,
        ∃ sym fld, c.1 = [sym, fld] ∧
          sym ∈ (loopState fetch threads order tickersIn).dfs.map Prod.fst) ∧
    (gb = GroupBy.column → mli = true →
      ∀ c ∈ (download fetch tickersIn igtz interval threads order gb mli).1.cols,
        ∃ sym fld, c.1 = [fld, sym] ∧
          sym ∈ (loopState fetch threads order tickersIn).dfs.map Prod.fst) := by
  refine ⟨?_, ?_, ?_⟩
  · intro s hs
    rw [download_eq] at hs
    simp only at hs
    rw [applyDropLevel_index, applyGroupBy_index] at hs
    rcases List.mem_map.1 hs with ⟨s0, _, he⟩
    rw [← he]
    exact toUtc_tz s0
  · rintro rfl rfl
    intro c hc
    rw [download_eq, applyDropLevel_mli] at hc
    exact concatStage_key fetch threads order tickersIn igtz interval c hc
  · rintro rfl rfl
    intro c hc
    rw [download_eq, applyDropLevel_mli] at hc
    have hc2 : c ∈ sortLe colLe
        ((concatStage (concatInput fetch threads order tickersIn igtz interval)).cols.map
          (fun c => (swapKey c.1, c.2))) := hc
    rw [mem_sortLe] at hc2
    rcases List.mem_map.1 hc2 with ⟨c0, hc0, he⟩
    rcases concatStage_key fetch threads order tickersIn igtz interval c0 hc0 with
      ⟨sym, fld, hk, hs⟩
    refine ⟨sym, fld, ?_, hs⟩
    rw [← he]
    simp only
    rw [hk]
    rfl

/-- Witness for C6 corrected at a concrete input: the returned row key with
zone-naive output requested is the UTC-aware stamp. -/
theorem C6_rowkey_amended_witness :
    (⟨600, some 0⟩ : Stamp)
        ∈ (download fetchAware ["TLV"] none "1d" false [] .ticker true).1.index ∧
    (⟨600, some 0⟩ : Stamp).tz = some 0 := by
  refine ⟨by decide, ?_⟩
  exact (C6_rowkey_amended fetchAware ["TLV"] none "1d" false [] .ticker true).1
    ⟨600, some 0⟩ (by decide)

theorem char_eq_of_toNat {a b : Char} (h : a.toNat = b.toNat) : a = b :=
  Char.eq_of_val_eq (UInt32.toNat.inj h)

theorem string_eq_of_data {a b : String} (h : a.data = b.data) : a = b := by
  cases a; cases b
  simp only at h
  rw [h]

theorem charsLt_trichotomy : ∀ x y : List Char,
    charsLt x y = true ∨ charsLt y x = true ∨ x = y := by
  intro x
  induction x with
  | nil =>
    intro y
    cases y with
    | nil => right; right; rfl
    | cons b bs => left; rfl
  | cons a as ih =>
    intro y
    cases y with
    | nil => right; left; rfl
    | cons b bs =>
      by_cases h1 : a.toNat < b.toNat
      · left; simp [charsLt, h1]
      · by_cases h2 : b.toNat < a.toNat
        · right; left; simp [charsLt, h2]
        · have hab : a = b := char_eq_of_toNat (by omega)
          subst hab
          rcases ih bs with h | h | h
          · left; simp [charsLt, h]
          · right; left; simp [charsLt, h]
          · right; right; rw [h]

theorem charsLt_asymm : ∀ x y : List Char,
    charsLt x y = true → charsLt y x = true → False := by
  intro x
  induction x with
  | nil =>
    intro y hxy hyx
    cases y with
    | nil => exact absurd hxy (by simp [charsLt])
    | cons b bs => exact absurd hyx (by simp [charsLt])
  | cons a as ih =>
    intro y hxy hyx
    cases y with
    | nil => exact absurd hxy (by simp [charsLt])
    | cons b bs =>
      by_cases h1 : a.toNat < b.toNat
      · have h2 : ¬ b.toNat < a.toNat := by omega
        simp [charsLt, h1, h2] at hyx
      · by_cases h2 : b.toNat < a.toNat
        · simp [charsLt, h1, h2] at hxy
        · simp [charsLt, h1, h2] at hxy hyx
          exact ih bs hxy hyx

theorem charsLt_trans : ∀ x y z : List Char,
    charsLt x y = true → charsLt y z = true → charsLt x z = true := by
  intro x
  induction x with
  | nil =>
    intro y z hxy hyz
    cases y with
    | nil => exact absurd hxy (by simp [charsLt])
    | cons b bs =>
      cases z with
      | nil => exact absurd hyz (by simp [charsLt])
      | cons c cs => rfl
  | cons a as ih =>
    intro y z hxy hyz
    cases y with
    | nil => exact absurd hxy (by simp [charsLt])
    | cons b bs =>
      cases z with
      | nil => exact absurd hyz (by simp [charsLt])
      | cons c cs =>
        by_cases h1 : a.toNat < b.toNat <;> by_cases h2 : b.toNat < c.toNat
        · simp [charsLt]; omega
        · by_cases h3 : c.toNat < b.toNat
          · simp [charsLt, h2, h3] at hyz
          · have hbc : b = c := char_eq_of_toNat (by omega)
            subst hbc
            simp [charsLt, h1]
        · by_cases h3 : b.toNat < a.toNat
          · simp [charsLt, h1, h3] at hxy
          · have hab : a = b := char_eq_of_toNat (by omega)
            subst hab
            simp [charsLt, h2]
        · by_cases h3 : b.toNat < a.toNat
          · simp [charsLt, h1, h3] at hxy
          · by_cases h4 : c.toNat < b.toNat
            · simp [charsLt, h2, h4] at hyz
            · have hab : a = b := char_eq_of_toNat (by omega)
              have hbc : b = c := char_eq_of_toNat (by omega)
              subst hab; subst hbc
              simp [charsLt, h1, h3] at hxy hyz ⊢
              exact ih bs cs hxy hyz

theorem strLt_trichotomy (a b : String) :
    strLt a b = true ∨ strLt b a = true ∨ a = b := by
  rcases charsLt_trichotomy a.data b.data with h | h | h
  · left; exact h
  · right; left; exact h
  · right; right; exact string_eq_of_data h

theorem strLt_asymm {a b : String} (h1 : strLt a b = true) (h2 : strLt b a = true) :
    False :=
  charsLt_asymm a.data b.data h1 h2

theorem strLt_trans {a b c : String} (h1 : strLt a b = true)
    (h2 : strLt b c = true) : strLt a c = true :=
  charsLt_trans a.data b.data c.data h1 h2

theorem keyLe_total : ∀ a b : ColKey, keyLe a b = true ∨ keyLe b a = true := by
  intro a
  induction a with
  | nil => intro b; left; cases b <;> rfl
  | cons x xs ih =>
    intro b
    cases b with
    | nil => right; rfl
    | cons y ys =>
      by_cases h1 : strLt x y = true
      · left; simp [keyLe, h1]
      · by_cases h2 : strLt y x = true
        · right; simp [keyLe, h2]
        · rcases ih ys with h | h
          · left; simp [keyLe, h1, h2, h]
          · right; simp [keyLe, h1, h2, h]

theorem keyLe_antisymm : ∀ a b : ColKey, keyLe a b = true → keyLe b a = true → a = b := by
  intro a
  induction a with
  | nil =>
    intro b _ hba
    cases b with
    | nil => rfl
    | cons y ys => exact absurd hba (by simp [keyLe])
  | cons x xs ih =>
    intro b hab hba
    cases b with
    | nil => exact absurd hab (by simp [keyLe])
    | cons y ys =>
      by_cases h1 : strLt x y = true
      · have h2 : strLt y x = false := by
          cases hcase : strLt y x
          · rfl
          · exact (strLt_asymm h1 hcase).elim
        simp [keyLe, h1, h2] at hba
      · by_cases h2 : strLt y x = true
        · simp [keyLe, h1, h2] at hab
        · have hxy : x = y := by
            rcases strLt_trichotomy x y with h | h | h
            · exact absurd h h1
            · exact absurd h h2
            · exact h
          subst hxy
          simp [keyLe, h1, h2] at hab hba
          rw [ih ys hab hba]

theorem keyLe_trans : ∀ a b c : ColKey,
    keyLe a b = true → keyLe b c = true → keyLe a c = true := by
  intro a
  induction a with
  | nil => intro b c _ _; cases c <;> rfl
  | cons x xs ih =>
    intro b c hab hbc
    cases b with
    | nil => exact absurd hab (by simp [keyLe])
    | cons y ys =>
      cases c with
      | nil => exact absurd hbc (by simp [keyLe])
      | cons z zs =>
        by_cases h1 : strLt x y = true <;> by_cases h2 : strLt y z = true
        · simp [keyLe, strLt_trans h1 h2]
        · by_cases h3 : strLt z y = true
          · simp [keyLe, h2, h3] at hbc
          · have hyz : y = z := by
              rcases strLt_trichotomy y z with h | h | h
              · exact absurd h h2
              · exact absurd h h3
              · exact h
            subst hyz
            simp [keyLe, h1]
        · by_cases h3 : strLt y x = true
          · simp [keyLe, h1, h3] at hab
          · have hxy : x = y := by
              rcases strLt_trichotomy x y with h | h | h
              · exact absurd h h1
              · exact absurd h h3
              · exact h
            subst hxy
            simp [keyLe, h2]
        · by_cases h3 : strLt y x = true
          · simp [keyLe, h1, h3] at hab
          · by_cases h4 : strLt z y = true
            · simp [keyLe, h2, h4] at hbc
            · have hxy : x = y := by
                rcases strLt_trichotomy x y with h | h | h
                · exact absurd h h1
                · exact absurd h h3
                · exact h
              have hyz : y = z := by
                rcases strLt_trichotomy y z with h | h | h
                · exact absurd h h2
                · exact absurd h h4
                · exact h
              subst hxy; subst hyz
              simp [keyLe, h1, h3] at hab hbc ⊢
              exact ih ys zs hab hbc

theorem colLe_total (a b : ColKey × List (Option Int)) :
    colLe a b = true ∨ colLe b a = true := keyLe_total a.1 b.1

theorem colLe_trans (a b c : ColKey × List (Option Int)) (h1 : colLe a b = true)
    (h2 : colLe b c = true) : colLe a c = true := keyLe_trans a.1 b.1 c.1 h1 h2

theorem colLe_key (a b : ColKey × List (Option Int)) (h1 : colLe a b = true)
    (h2 : colLe b a = true) : a.1 = b.1 := keyLe_antisymm a.1 b.1 h1 h2

theorem bool_eq_of_iff {a b : Bool} (h : a = true ↔ b = true) : a = b := by
  cases a <;> cases b <;> simp_all

theorem perm_any {α : Type} (f : α → Bool) {l₁ l₂ : List α} (h : l₁.Perm l₂) :
    l₁.any f = l₂.any f := by
  apply bool_eq_of_iff
  rw [List.any_eq_true, List.any_eq_true]
  constructor <;> rintro ⟨x, hx, hfx⟩
  · exact ⟨x, h.mem_iff.1 hx, hfx⟩
  · exact ⟨x, h.mem_iff.2 hx, hfx⟩

theorem allIdxEq_perm {l₁ l₂ : List (Sym × DF)} (h : l₁.Perm l₂) :
    allIdxEq l₁ = allIdxEq l₂ := by
  apply bool_eq_of_iff
  rw [allIdxEq_iff, allIdxEq_iff]
  constructor <;> intro hall p hp q hq
  · exact hall p (h.mem_iff.2 hp) q (h.mem_iff.2 hq)
  · exact hall p (h.mem_iff.1 hp) q (h.mem_iff.1 hq)

theorem concatFails_perm {l₁ l₂ : List (Sym × DF)} (h : l₁.Perm l₂) :
    concatFails l₁ = concatFails l₂ := by
  unfold concatFails
  rw [perm_any _ h, allIdxEq_perm h]

theorem unionIndex_perm {l₁ l₂ : List (Sym × DF)} (h : l₁.Perm l₂) :
    unionIndex l₁ = unionIndex l₂ := by
  unfold unionIndex
  refine sortLe_eq_of_perm stampLe id stampLe_total stampLe_trans
    (fun a b h1 h2 => stampLe_antisymm a b h1 h2) ?_ ?_
  · exact ((h.map _).flatten).dedup
  · rw [List.map_id]
    exact List.nodup_dedup _

theorem headIndex_eq {l₁ l₂ : List (Sym × DF)} (h : l₁.Perm l₂)
    (hall : allIdxEq l₁ = true) :
    ((l₁.head?.map (fun p => dfIndex p.2)).getD [])
      = ((l₂.head?.map (fun p => dfIndex p.2)).getD []) := by
  cases l₁ with
  | nil =>
    rw [← h.nil_eq]
  | cons a t₁ =>
    cases l₂ with
    | nil => exact absurd h.symm.nil_eq (by simp)
    | cons b t₂ =>
      have hb : b ∈ a :: t₁ := h.mem_iff.2 (by simp)
      simp only [List.head?, Option.map, Option.getD]
      exact (allIdxEq_iff _).1 hall a (by simp) b hb

theorem lookupA_perm {κ α : Type} [BEq κ] [LawfulBEq κ] :
    ∀ {m₁ m₂ : List (κ × α)}, m₁.Perm m₂ → (m₁.map Prod.fst).Nodup →
      ∀ k, lookupA m₁ k = lookupA m₂ k := by
  intro m₁ m₂ h
  induction h with
  | nil => intro _ _; rfl
  | cons x h2 ih =>
    intro hnd k
    unfold lookupA
    rw [List.find?_cons, List.find?_cons]
    cases hx : (x.1 == k)
    · have hr := ih (by
        rw [List.map_cons, List.nodup_cons] at hnd
        exact hnd.2) k
      unfold lookupA at hr
      exact hr
    · rfl
  | swap x y l =>
    intro hnd k
    unfold lookupA
    rw [List.find?_cons, List.find?_cons, List.find?_cons, List.find?_cons]
    cases hy : (y.1 == k) <;> cases hx : (x.1 == k)
    · rfl
    · rfl
    · rfl
    · exfalso
      have hxk : x.1 = k := by simpa using hx
      have hyk : y.1 = k := by simpa using hy
      rw [List.map_cons, List.map_cons, List.nodup_cons] at hnd
      exact hnd.1 (by simp [hyk, hxk])
  | trans h1 h2 ih1 ih2 =>
    intro hnd k
    rw [ih1 hnd k, ih2 (hnd.perm (h1.map Prod.fst)) k]

theorem blockColsOn_keys (u : List Stamp) (p : Sym × DF) :
    (blockColsOn u p).map Prod.fst = p.2.fields.map (fun fld => [p.1, fld]) := by
  unfold blockColsOn
  rw [List.map_map]
  have hpt : ∀ q ∈ p.2.fields.enum,
      ((Prod.fst ∘ fun q : Nat × String =>
        ([p.1, q.2], u.map (fun t =>
          match lookupRow p.2 t with
          | none => none
          | some vs => rowVal vs q.1))) q)
      = (((fun fld => [p.1, fld]) ∘ Prod.snd) q) := fun q _ => rfl
  rw [List.map_congr_left hpt, ← List.map_map, List.enum_map_snd]

theorem blockColsPos_keys (p : Sym × DF) :
    (blockColsPos p).map Prod.fst = p.2.fields.map (fun fld => [p.1, fld]) := by
  unfold blockColsPos
  rw [List.map_map]
  have hpt : ∀ q ∈ p.2.fields.enum,
      ((Prod.fst ∘ fun q : Nat × String =>
        ([p.1, q.2], p.2.rows.map (fun r => rowVal r.2 q.1))) q)
      = (((fun fld => [p.1, fld]) ∘ Prod.snd) q) := fun q _ => rfl
  rw [List.map_congr_left hpt, ← List.map_map, List.enum_map_snd]

theorem cols_keys_nodup (dfs : List (Sym × DF))
    (blockF : Sym × DF → List (ColKey × List (Option Int)))
    (hbk : ∀ p, (blockF p).map Prod.fst = p.2.fields.map (fun fld => [p.1, fld]))
    (hnd : (dfs.map Prod.fst).Nodup) (hf : ∀ p ∈ dfs, p.2.fields.Nodup) :
    (((dfs.map blockF).flatten).map Prod.fst).Nodup := by
  rw [List.map_flatten, List.map_map]
  have hshape : dfs.map (List.map Prod.fst ∘ blockF)
      = dfs.map (fun p => p.2.fields.map (fun fld => [p.1, fld])) :=
    List.map_congr_left (fun p _ => hbk p)
  rw [hshape]
  rw [List.nodup_flatten]
  constructor
  · intro l hl
    rcases List.mem_map.1 hl with ⟨p, hp, hpe⟩
    rw [← hpe]
    refine (hf p hp).map ?_
    intro a b hab
    have h2 : p.1 = p.1 ∧ a = b := by simpa using hab
    exact h2.2
  · rw [List.pairwise_map]
    have hpw : dfs.Pairwise (fun p q => p.1 ≠ q.1) := List.pairwise_map.1 hnd
    refine hpw.imp ?_
    intro p q hne x hxp hxq
    rcases List.mem_map.1 hxp with ⟨f1, hf1, he1⟩
    rcases List.mem_map.1 hxq with ⟨f2, hf2, he2⟩
    have heq : ([p.1, f1] : ColKey) = [q.1, f2] := he1.trans he2.symm
    have h3 : p.1 = q.1 ∧ f1 = f2 := by simpa using heq
    exact hne h3.1

theorem errs_keys (fetch : Sym → Except String DF) :
    ∀ l : List Sym,
      (l.filterMap (fun t => (fetchErr fetch t).map (fun e => (t, e)))).map Prod.fst
        = l.filter (fetchFails fetch) := by
  intro l
  induction l with
  | nil => rfl
  | cons t rest ih =>
    cases hft : fetch t with
    | error e =>
      have hfa : ((fetchErr fetch t).map (fun er => (t, er))) = some (t, e) := by
        unfold fetchErr
        rw [hft]
        rfl
      have h2 : fetchFails fetch t = true := by
        unfold fetchFails
        rw [hft]
      simp only [List.filterMap_cons, hfa, List.map_cons, List.filter_cons, h2, if_true]
      rw [ih]
    | ok d =>
      have hfa : ((fetchErr fetch t).map (fun er => (t, er))) = none := by
        unfold fetchErr
        rw [hft]
        rfl
      have h2 : fetchFails fetch t = false := by
        unfold fetchFails
        rw [hft]
      simp only [List.filterMap_cons, hfa, List.filter_cons, h2, Bool.false_eq_true,
        if_false]
      exact ih

theorem applyIgnoreTz_perm (b : Bool) {l₁ l₂ : List (Sym × DF)} (h : l₁.Perm l₂) :
    (applyIgnoreTz b l₁).Perm (applyIgnoreTz b l₂) := by
  unfold applyIgnoreTz
  cases b
  · simpa using h
  · simpa using h.map _

theorem mem_applyIgnoreTz {b : Bool} {dfs : List (Sym × DF)}
    {p : Sym × DF} (hp : p ∈ applyIgnoreTz b dfs) :
    ∃ q ∈ dfs, p.1 = q.1 ∧ p.2.fields = q.2.fields := by
  unfold applyIgnoreTz at hp
  cases b
  · exact ⟨p, by simpa using hp, rfl, rfl⟩
  · rw [if_pos rfl] at hp
    rcases List.mem_map.1 hp with ⟨q, hq, hqe⟩
    by_cases hlen : q.2.rows.length > 0
    · rw [if_pos hlen] at hqe
      exact ⟨q, hq, by rw [← hqe], by rw [← hqe]⟩
    · rw [if_neg hlen] at hqe
      exact ⟨q, hq, by rw [← hqe], by rw [← hqe]⟩

theorem map_fst_pairs (g : Sym → DF) (l : List Sym) :
    (l.map (fun t => (t, g t))).map Prod.fst = l := by
  rw [List.map_map]
  have hpt : ∀ t ∈ l, (Prod.fst ∘ fun u : Sym => (u, g u)) t = id t := fun _ _ => rfl
  rw [List.map_congr_left hpt, List.map_id]

theorem concatDFS_index_allEq (l : List (Sym × DF)) (hall : allIdxEq l = true) :
    (concatDFS l).index = (l.head?.map (fun p => dfIndex p.2)).getD [] := by
  unfold concatDFS
  rw [if_pos hall]

theorem concatDFS_cols_allEq (l : List (Sym × DF)) (hall : allIdxEq l = true) :
    (concatDFS l).cols = (l.map blockColsPos).flatten := by
  unfold concatDFS
  rw [if_pos hall]

theorem concatDFS_index_union (l : List (Sym × DF)) (hall : allIdxEq l = false) :
    (concatDFS l).index = unionIndex l := by
  unfold concatDFS
  rw [if_neg (by simp [hall])]

theorem concatDFS_cols_union (l : List (Sym × DF)) (hall : allIdxEq l = false) :
    (concatDFS l).cols = (l.map (blockColsOn (unionIndex l))).flatten := by
  unfold concatDFS
  rw [if_neg (by simp [hall])]

theorem concatStage_noFail (dfs : List (Sym × DF)) (h : concatFails dfs = false) :
    concatStage dfs = concatDFS dfs := by
  unfold concatStage
  rw [if_neg (by simp [h])]

theorem concatDFS_perm (l₁ l₂ : List (Sym × DF)) (h : l₁.Perm l₂)
    (hnd : (l₂.map Prod.fst).Nodup) (hf : ∀ p ∈ l₂, p.2.fields.Nodup) :
    (concatDFS l₁).index = (concatDFS l₂).index ∧
    (concatDFS l₁).cols.Perm (concatDFS l₂).cols ∧
    ((concatDFS l₂).cols.map Prod.fst).Nodup := by
  cases hall : allIdxEq l₂ with
  | true =>
    have hall₁ : allIdxEq l₁ = true := by rw [allIdxEq_perm h]; exact hall
    refine ⟨?_, ?_, ?_⟩
    · rw [concatDFS_index_allEq l₁ hall₁, concatDFS_index_allEq l₂ hall]
      exact headIndex_eq h hall₁
    · rw [concatDFS_cols_allEq l₁ hall₁, concatDFS_cols_allEq l₂ hall]
      exact (h.map blockColsPos).flatten
    · rw [concatDFS_cols_allEq l₂ hall]
      exact cols_keys_nodup l₂ blockColsPos blockColsPos_keys hnd hf
  | false =>
    have hall₁ : allIdxEq l₁ = false := by rw [allIdxEq_perm h]; exact hall
    refine ⟨?_, ?_, ?_⟩
    · rw [concatDFS_index_union l₁ hall₁, concatDFS_index_union l₂ hall]
      exact unionIndex_perm h
    · rw [concatDFS_cols_union l₁ hall₁, concatDFS_cols_union l₂ hall,
        unionIndex_perm h]
      exact (h.map (blockColsOn (unionIndex l₂))).flatten
    · rw [concatDFS_cols_union l₂ hall]
      exact cols_keys_nodup l₂ (blockColsOn (unionIndex l₂)) (blockColsOn_keys _) hnd hf

/-- C4 counterexample: with group_by ticker, the completion order of the
worker threads dictates the dict insertion order and with it the order of
the returned column blocks, so a threaded run whose workers finish in
reverse order returns a different table than the synchronous run. -/
theorem C4_thread_counterexample :
    (["B", "A"] : List Sym).Perm (normalize ["A", "B"]) ∧
    download fetchAB ["A", "B"] (some false) "1d" true ["B", "A"] .ticker true
      ≠ download fetchAB ["A", "B"] (some false) "1d" false ["B", "A"] .ticker true := by
  decide

theorem loopState_true (fetch : Sym → Except String DF) (order : List Sym)
    (tickersIn : List String) :
    loopState fetch true order tickersIn = (runAll fetch order initState).1 := rfl

theorem loopState_false (fetch : Sym → Except String DF) (order : List Sym)
    (tickersIn : List String) :
    loopState fetch false order tickersIn
      = (runAll fetch (normalize tickersIn) initState).1 := rfl

theorem download_table (fetch : Sym → Except String DF) (tickersIn : List String)
    (igtz : Option Bool) (interval : String) (threads : Bool) (order : List Sym)
    (gb : GroupBy) (mli : Bool) :
    (download fetch tickersIn igtz interval threads order gb mli).1
      = applyDropLevel mli (normalize tickersIn).length gb
          (applyGroupBy gb
            (Table.mk
              ((concatStage (concatInput fetch threads order tickersIn igtz
                interval)).index.map toUtc)
              (concatStage (concatInput fetch threads order tickersIn igtz
                interval)).cols)) := rfl

theorem download_snd (fetch : Sym → Except String DF) (tickersIn : List String)
    (igtz : Option Bool) (interval : String) (threads : Bool) (order : List Sym)
    (gb : GroupBy) (mli : Bool) :
    (download fetch tickersIn igtz interval threads order gb mli).2
      = (loopState fetch threads order tickersIn).errors := rfl

theorem table_mk_index (i : List Stamp) (c : List (ColKey × List (Option Int))) :
    (Table.mk i c).index = i := rfl

theorem table_mk_cols (i : List Stamp) (c : List (ColKey × List (Option Int))) :
    (Table.mk i c).cols = c := rfl

theorem applyGroupBy_ticker (t : Table) : applyGroupBy GroupBy.ticker t = t := rfl

theorem applyGroupBy_column (t : Table) :
    applyGroupBy GroupBy.column t
      = Table.mk t.index (sortLe colLe (t.cols.map (fun c => (swapKey c.1, c.2)))) := rfl

/-- C4 corrected: for a fixed configuration, a threaded run whose workers
complete in any order produces the same row index, the same series under
every column key and the same error under every symbol as the synchronous
run, provided the plain concatenation succeeds; under the default group_by
column the returned tables are identical, while under group_by ticker only
the order of the column blocks can differ, following the completion order. -/
theorem C4_thread_amended (fetch : Sym → Except String DF) (tickersIn : List String)
    (order : List Sym) (igtz : Option Bool) (interval : String) (gb : GroupBy)
    (hperm : order.Perm (normalize tickersIn))
    (hfields : ∀ t, (dlOutcome fetch t).fields.Nodup)
    (hnofail : concatFails (concatInput fetch false order tickersIn igtz interval)
      = false) :
    (download fetch tickersIn igtz interval true order gb true).1.index
      = (download fetch tickersIn igtz interval false order gb true).1.index ∧
    (∀ k : ColKey,
      lookupA (download fetch tickersIn igtz interval true order gb true).1.cols k
        = lookupA (download fetch tickersIn igtz interval false order gb true).1.cols k) ∧
    (∀ s : Sym,
      lookupA (download fetch tickersIn igtz interval true order gb true).2 s
        = lookupA (download fetch tickersIn igtz interval false order gb true).2 s) ∧
    (gb = GroupBy.column →
      (download fetch tickersIn igtz interval true order gb true).1
        = (download fetch tickersIn igtz interval false order gb true).1) := by
  have hup_ts : ∀ t ∈ normalize tickersIn, upperSym t = t :=
    fun t ht => mem_normalize_upper ht
  have hnd_ts : (normalize tickersIn).Nodup := normalize_nodup tickersIn
  have hup_or : ∀ t ∈ order, upperSym t = t := fun t ht => hup_ts t (hperm.mem_iff.1 ht)
  have hnd_or : order.Nodup := hnd_ts.perm hperm.symm
  have hdfs_thr : (loopState fetch true order tickersIn).dfs
      = order.map (fun t => (t, dlOutcome fetch t)) := by
    rw [loopState_true]
    exact init_run_dfs fetch order hup_or hnd_or
  have hdfs_syn : (loopState fetch false order tickersIn).dfs
      = (normalize tickersIn).map (fun t => (t, dlOutcome fetch t)) := by
    rw [loopState_false]
    exact init_run_dfs fetch _ hup_ts hnd_ts
  have herr_thr : (loopState fetch true order tickersIn).errors
      = order.filterMap (fun t => (fetchErr fetch t).map (fun e => (t, e))) := by
    rw [loopState_true]
    exact init_run_errors fetch order hup_or hnd_or
  have herr_syn : (loopState fetch false order tickersIn).errors
      = (normalize tickersIn).filterMap
          (fun t => (fetchErr fetch t).map (fun e => (t, e))) := by
    rw [loopState_false]
    exact init_run_errors fetch _ hup_ts hnd_ts
  have hci : (concatInput fetch true order tickersIn igtz interval).Perm
      (concatInput fetch false order tickersIn igtz interval) := by
    unfold concatInput
    rw [hdfs_thr, hdfs_syn]
    exact applyIgnoreTz_perm _ (hperm.map _)
  have hnd_ci : ((concatInput fetch false order tickersIn igtz interval).map
      Prod.fst).Nodup := by
    unfold concatInput
    rw [applyIgnoreTz_keys, hdfs_syn, map_fst_pairs]
    exact hnd_ts
  have hf_ci : ∀ p ∈ concatInput fetch false order tickersIn igtz interval,
      p.2.fields.Nodup := by
    intro p hp
    unfold concatInput at hp
    rcases mem_applyIgnoreTz hp with ⟨q, hq, _, hfe⟩
    rw [hfe]
    rw [hdfs_syn] at hq
    rcases List.mem_map.1 hq with ⟨t, _, hte⟩
    rw [← hte]
    exact hfields t
  have hnofail_thr : concatFails (concatInput fetch true order tickersIn igtz interval)
      = false := by
    rw [concatFails_perm hci]
    exact hnofail
  have hcs_thr := concatStage_noFail _ hnofail_thr
  have hcs_syn := concatStage_noFail _ hnofail
  have hconc := concatDFS_perm _ _ hci hnd_ci hf_ci
  have hidx : (concatStage (concatInput fetch true order tickersIn igtz interval)).index
      = (concatStage (concatInput fetch false order tickersIn igtz interval)).index := by
    rw [hcs_thr, hcs_syn]
    exact hconc.1
  have hcolsp : (concatStage (concatInput fetch true order tickersIn igtz interval)).cols.Perm
      (concatStage (concatInput fetch false order tickersIn igtz interval)).cols := by
    rw [hcs_thr, hcs_syn]
    exact hconc.2.1
  have hndcols : (((concatStage (concatInput fetch false order tickersIn igtz
      interval)).cols).map Prod.fst).Nodup := by
    rw [hcs_syn]
    exact hconc.2.2
  have hndcols_thr : (((concatStage (concatInput fetch true order tickersIn igtz
      interval)).cols).map Prod.fst).Nodup :=
    hndcols.perm (hcolsp.map Prod.fst).symm
  have hshape_thr : ∀ c ∈ (concatStage (concatInput fetch true order tickersIn igtz
      interval)).cols, ∃ s fld, c.1 = [s, fld] := by
    intro c hc
    rcases concatStage_key fetch true order tickersIn igtz interval c hc with
      ⟨s, fld, hk, _⟩
    exact ⟨s, fld, hk⟩
  have hsorted : sortLe colLe
      (((concatStage (concatInput fetch true order tickersIn igtz interval)).cols).map
        (fun c => (swapKey c.1, c.2)))
      = sortLe colLe
        (((concatStage (concatInput fetch false order tickersIn igtz interval)).cols).map
          (fun c => (swapKey c.1, c.2))) := by
    refine sortLe_eq_of_perm colLe Prod.fst colLe_total colLe_trans colLe_key
      (hcolsp.map _) ?_
    rw [List.map_map]
    have hcomp : ((concatStage (concatInput fetch true order tickersIn igtz
        interval)).cols).map
          (Prod.fst ∘ fun c : ColKey × List (Option Int) => (swapKey c.1, c.2))
        = (((concatStage (concatInput fetch true order tickersIn igtz
            interval)).cols).map Prod.fst).map swapKey := by
      rw [List.map_map]
      rfl
    rw [hcomp]
    refine hndcols_thr.map_on ?_
    intro x hx y hy hswap
    rcases List.mem_map.1 hx with ⟨c, hc, hce⟩
    rcases List.mem_map.1 hy with ⟨d, hd, hde⟩
    rcases hshape_thr c hc with ⟨s1, f1, hk1⟩
    rcases hshape_thr d hd with ⟨s2, f2, hk2⟩
    rw [← hce, ← hde] at hswap ⊢
    rw [hk1, hk2] at hswap ⊢
    have h2 : f1 = f2 ∧ s1 = s2 := by simpa [swapKey] using hswap
    rw [h2.1, h2.2]
  refine ⟨?_, ?_, ?_, ?_⟩
  · rw [download_table, download_table, applyDropLevel_mli, applyDropLevel_mli,
      applyGroupBy_index, applyGroupBy_index, table_mk_index, table_mk_index, hidx]
  · intro k
    rw [download_table, download_table, applyDropLevel_mli, applyDropLevel_mli]
    cases gb with
    | ticker =>
      rw [applyGroupBy_ticker, applyGroupBy_ticker, table_mk_cols, table_mk_cols]
      exact lookupA_perm hcolsp hndcols_thr k
    | column =>
      rw [applyGroupBy_column, applyGroupBy_column, table_mk_cols, table_mk_cols,
        table_mk_cols, table_mk_cols, hsorted]
  · intro s
    rw [download_snd, download_snd, herr_thr, herr_syn]
    refine lookupA_perm (hperm.filterMap _) ?_ s
    rw [errs_keys]
    exact hnd_or.filter _
  · rintro rfl
    rw [download_table, download_table, applyDropLevel_mli, applyDropLevel_mli,
      applyGroupBy_column, applyGroupBy_column, table_mk_index, table_mk_cols,
      table_mk_index, table_mk_cols, hidx, hsorted]

/-- Witness for C4 corrected at a concrete input: two symbols completing in
reverse order, group_by ticker, lookups agree. -/
theorem C4_thread_amended_witness :
    lookupA (download fetchAB ["A", "B"] (some false) "1d" true ["B", "A"]
      .ticker true).1.cols ["A", "Close"]
      = lookupA (download fetchAB ["A", "B"] (some false) "1d" false ["B", "A"]
          .ticker true).1.cols ["A", "Close"] := by
  exact (C4_thread_amended fetchAB ["A", "B"] ["B", "A"] (some false) "1d" .ticker
    (by decide) (fun t => by
      unfold dlOutcome fetchAB
      by_cases h1 : t = "A"
      · rw [if_pos h1]
        decide
      · rw [if_neg h1]
        by_cases h2 : t = "B"
        · rw [if_pos h2]
          decide
        · rw [if_neg h2]
          decide)
    (by decide)).2.1 ["A", "Close"]

theorem applyIgnoreTz_false (dfs : List (Sym × DF)) :
    applyIgnoreTz false dfs = dfs := rfl

theorem lookupRow_head (df : DF) (r0 : Stamp × List (Option Int))
    (rest : List (Stamp × List (Option Int))) (h : df.rows = r0 :: rest) :
    lookupRow df r0.1 = some r0.2 := by
  unfold lookupRow
  rw [h, List.find?_cons]
  simp

theorem mem_unionIndex (dfs : List (Sym × DF)) (t : Stamp) (p : Sym × DF)
    (hp : p ∈ dfs) (ht : t ∈ dfIndex p.2) : t ∈ unionIndex dfs := by
  unfold unionIndex
  rw [mem_sortLe, List.mem_dedup, List.mem_flatten]
  exact ⟨dfIndex p.2, List.mem_map_of_mem _ hp, ht⟩

theorem ts_single (ts : List Sym) (f : Sym) (hnd : ts.Nodup) (hf : f ∈ ts)
    (hall : ∀ s ∈ ts, s = f) : ts = [f] := by
  cases ts with
  | nil => exact absurd hf (by simp)
  | cons t rest =>
    have ht : t = f := hall t (by simp)
    subst ht
    rcases List.nodup_cons.1 hnd with ⟨hni, _⟩
    have hrest : rest = [] := by
      cases rest with
      | nil => rfl
      | cons u us =>
        have hu : u = t := hall u (by simp)
        exact absurd (hu ▸ (List.mem_cons_self u us)) hni
    rw [hrest]

theorem cols_core (fetch : Sym → Except String DF) (ts : List Sym) (f : Sym)
    (g : Sym → DF)
    (hnd : ts.Nodup) (hf : f ∈ ts)
    (hfe : dlOutcome fetch f = empty_df)
    (hok : ∀ s ∈ ts, s ≠ f → dlOutcome fetch s = g s)
    (hg : ∀ s ∈ ts, s ≠ f →
      (g s).rows ≠ [] ∧ (g s).fields ≠ [] ∧
      ∀ r ∈ (g s).rows, r.2.length = (g s).fields.length ∧ ∀ v ∈ r.2, v.isSome) :
    (∀ s ∈ ts, ∃ c ∈ (concatDFS (ts.map (fun t => (t, dlOutcome fetch t)))).cols,
      ∃ fld, c.1 = [s, fld]) ∧
    (∀ s ∈ ts, s ≠ f →
      ∃ c ∈ (concatDFS (ts.map (fun t => (t, dlOutcome fetch t)))).cols,
        (∃ fld, c.1 = [s, fld]) ∧ ∃ v ∈ c.2, v.isSome = true) ∧
    (∀ c ∈ (concatDFS (ts.map (fun t => (t, dlOutcome fetch t)))).cols,
      ∀ fld, c.1 = [f, fld] → ∀ v ∈ c.2, v = none) := by
  cases hall : allIdxEq (ts.map (fun t => (t, dlOutcome fetch t))) with
  | true =>
    have hallf : ∀ s ∈ ts, s = f := by
      intro s hs
      by_contra hne
      have h1 : (s, dlOutcome fetch s) ∈ ts.map (fun t => (t, dlOutcome fetch t)) :=
        List.mem_map_of_mem _ hs
      have h2 : (f, dlOutcome fetch f) ∈ ts.map (fun t => (t, dlOutcome fetch t)) :=
        List.mem_map_of_mem _ hf
      have h3 := (allIdxEq_iff _).1 hall _ h1 _ h2
      simp only at h3
      rw [hok s hs hne, hfe] at h3
      have h4 : dfIndex (g s) = [] := h3
      unfold dfIndex at h4
      exact (hg s hs hne).1 (List.map_eq_nil_iff.1 h4)
    have hts : ts = [f] := ts_single ts f hnd hf hallf
    subst hts
    rw [concatDFS_cols_allEq _ hall]
    refine ⟨?_, ?_, ?_⟩
    · intro s hs
      have hsf : s = f := by simpa using hs
      subst hsf
      refine ⟨([s, "Open"], (dlOutcome fetch s).rows.map (fun r => rowVal r.2 0)),
        ?_, ⟨"Open", rfl⟩⟩
      rw [List.mem_flatten]
      refine ⟨blockColsPos (s, dlOutcome fetch s), by simp, ?_⟩
      unfold blockColsPos
      have hmem : ((0 : Nat), "Open") ∈ (dlOutcome fetch s).fields.enum := by
        rw [hfe]
        decide
      exact List.mem_map_of_mem _ hmem
    · intro s hs hne
      exact absurd (by simpa using hs : s = f) hne
    · intro c hc fld hk v hv
      rw [List.mem_flatten] at hc
      rcases hc with ⟨blk, hblk, hcb⟩
      rcases List.mem_map.1 hblk with ⟨p, hp, hpe⟩
      have hpf : p = (f, dlOutcome fetch f) := by simpa using hp
      rw [← hpe, hpf] at hcb
      unfold blockColsPos at hcb
      rcases List.mem_map.1 hcb with ⟨q, _, hqe⟩
      rw [← hqe] at hv
      simp only at hv
      rw [hfe] at hv
      exact absurd hv (by simp [empty_df])
  | false =>
    have hfldne : ∀ s ∈ ts, (dlOutcome fetch s).fields ≠ [] := by
      intro s hs
      by_cases hsf : s = f
      · rw [hsf, hfe]
        simp [empty_df, priceFields]
      · rw [hok s hs hsf]
        exact (hg s hs hsf).2.1
    rw [concatDFS_cols_union _ hall]
    refine ⟨?_, ?_, ?_⟩
    · intro s hs
      rcases hfs : (dlOutcome fetch s).fields with _ | ⟨fd, fds⟩
      · exact absurd hfs (hfldne s hs)
      refine ⟨([s, fd],
        (unionIndex (ts.map (fun t => (t, dlOutcome fetch t)))).map (fun t =>
          match lookupRow (dlOutcome fetch s) t with
          | none => none
          | some vs => rowVal vs 0)), ?_, ⟨fd, rfl⟩⟩
      rw [List.mem_flatten]
      refine ⟨blockColsOn (unionIndex (ts.map (fun t => (t, dlOutcome fetch t))))
        (s, dlOutcome fetch s), List.mem_map_of_mem _ (List.mem_map_of_mem _ hs), ?_⟩
      unfold blockColsOn
      have hmem : ((0 : Nat), fd) ∈ (dlOutcome fetch s).fields.enum := by
        rw [hfs, List.enum_cons]
        exact List.mem_cons_self _ _
      exact List.mem_map_of_mem _ hmem
    · intro s hs hne
      have hgs := hg s hs hne
      rcases hrows : (g s).rows with _ | ⟨r0, rrest⟩
      · exact absurd hrows hgs.1
      rcases hfs : (g s).fields with _ | ⟨fd, fds⟩
      · exact absurd hfs hgs.2.1
      refine ⟨([s, fd],
        (unionIndex (ts.map (fun t => (t, dlOutcome fetch t)))).map (fun t =>
          match lookupRow (dlOutcome fetch s) t with
          | none => none
          | some vs => rowVal vs 0)), ?_, ⟨fd, rfl⟩, ?_⟩
      · rw [List.mem_flatten]
        refine ⟨blockColsOn (unionIndex (ts.map (fun t => (t, dlOutcome fetch t))))
          (s, dlOutcome fetch s), List.mem_map_of_mem _ (List.mem_map_of_mem _ hs), ?_⟩
        unfold blockColsOn
        have hmem : ((0 : Nat), fd) ∈ (dlOutcome fetch s).fields.enum := by
          rw [hok s hs hne, hfs, List.enum_cons]
          exact List.mem_cons_self _ _
        exact List.mem_map_of_mem _ hmem
      · have hr0 : r0 ∈ (g s).rows := by
          rw [hrows]
          exact List.mem_cons_self _ _
        have ht0 : r0.1 ∈ dfIndex (g s) := by
          unfold dfIndex
          exact List.mem_map_of_mem _ hr0
        have htu : r0.1 ∈ unionIndex (ts.map (fun t => (t, dlOutcome fetch t))) := by
          refine mem_unionIndex _ _ (s, dlOutcome fetch s)
            (List.mem_map_of_mem _ hs) ?_
          simpa [hok s hs hne] using ht0
        refine ⟨(match lookupRow (dlOutcome fetch s) r0.1 with
          | none => none
          | some vs => rowVal vs 0), List.mem_map_of_mem _ htu, ?_⟩
        rw [hok s hs hne]
        simp only [lookupRow_head (g s) r0 rrest hrows]
        have hlen := (hgs.2.2 r0 hr0).1
        have hval := (hgs.2.2 r0 hr0).2
        rcases hr2 : r0.2 with _ | ⟨v0, vrest⟩
        · rw [hr2, hfs] at hlen
          simp at hlen
        · have hv0 : v0.isSome = true := hval v0 (by rw [hr2]; exact List.mem_cons_self _ _)
          simpa [rowVal] using hv0
    · intro c hc fld hk v hv
      rw [List.mem_flatten] at hc
      rcases hc with ⟨blk, hblk, hcb⟩
      rcases List.mem_map.1 hblk with ⟨p, hp, hpe⟩
      rw [← hpe] at hcb
      unfold blockColsOn at hcb
      rcases List.mem_map.1 hcb with ⟨q, hq, hqe⟩
      have hkey : ([p.1, q.2] : ColKey) = [f, fld] := by rw [← hk, ← hqe]
      have hpf : p.1 = f := (by simpa using hkey : p.1 = f ∧ q.2 = fld).1
      rcases List.mem_map.1 hp with ⟨t, ht, hte⟩
      have htf : t = f := by
        rw [← hte] at hpf
        simpa using hpf
      have hp2 : p.2 = dlOutcome fetch f := by
        rw [← hte, htf]
      rw [← hqe] at hv
      simp only at hv
      rcases List.mem_map.1 hv with ⟨t2, _, ht2e⟩
      rw [← ht2e, hp2, hfe]
      rfl

/-- C2: for a batch of distinct symbols where exactly one fetch fails and
the others return non-empty, fully valued series, the returned table's
ticker-level columns cover every symbol, each surviving symbol has a column
carrying a present value, every column of the failed symbol is entirely
missing-valued, and the error map holds exactly the one failure. -/
theorem C2_one_failed_column (fetch : Sym → Except String DF) (ts : List Sym)
    (f : Sym) (e : String) (g : Sym → DF) (gb : GroupBy)
    (hnd : ts.Nodup) (hup : ∀ t ∈ ts, upperSym t = t) (hf : f ∈ ts)
    (hfe : fetch f = .error e)
    (hok : ∀ s ∈ ts, s ≠ f → fetch s = .ok (g s))
    (hg : ∀ s ∈ ts, s ≠ f →
      (g s).rows ≠ [] ∧ (g s).fields ≠ [] ∧ ((g s).rows.map Prod.fst).Nodup ∧
      ∀ r ∈ (g s).rows, r.2.length = (g s).fields.length ∧ ∀ v ∈ r.2, v.isSome = true) :
    (∀ s ∈ ts,
      ∃ c ∈ (download fetch ts (some false) "1d" false [] gb true).1.cols,
        colTicker gb c.1 = some s) ∧
    (∀ s ∈ ts, s ≠ f →
      ∃ c ∈ (download fetch ts (some false) "1d" false [] gb true).1.cols,
        colTicker gb c.1 = some s ∧ ∃ v ∈ c.2, v.isSome = true) ∧
    (∀ c ∈ (download fetch ts (some false) "1d" false [] gb true).1.cols,
      colTicker gb c.1 = some f → ∀ v ∈ c.2, v = none) ∧
    (download fetch ts (some false) "1d" false [] gb true).2 = [(f, e)] := by
  have hself : normalize ts = ts := normalize_self hup hnd
  have hdfs : (loopState fetch false [] ts).dfs
      = ts.map (fun t => (t, dlOutcome fetch t)) := by
    rw [loopState_false, hself]
    exact init_run_dfs fetch ts hup hnd
  have hci : concatInput fetch false [] ts (some false) "1d"
      = ts.map (fun t => (t, dlOutcome fetch t)) := by
    unfold concatInput
    rw [show resolveIgnoreTz (some false) "1d" = false from rfl, applyIgnoreTz_false]
    exact hdfs
  have hout_f : dlOutcome fetch f = empty_df := by
    unfold dlOutcome
    rw [hfe]
  have hout_s : ∀ s ∈ ts, s ≠ f → dlOutcome fetch s = g s := by
    intro s hs hne
    unfold dlOutcome
    rw [hok s hs hne]
  have hnodup_idx : ∀ p ∈ ts.map (fun t => (t, dlOutcome fetch t)),
      (dfIndex p.2).Nodup := by
    intro p hp
    rcases List.mem_map.1 hp with ⟨t, ht, hte⟩
    rw [← hte]
    by_cases htf : t = f
    · simp only
      rw [htf, hout_f]
      simp [dfIndex, empty_df]
    · simp only
      rw [hout_s t ht htf]
      exact (hg t ht htf).2.2.1
  have hnofail : concatFails (concatInput fetch false [] ts (some false) "1d")
      = false := by
    rw [hci]
    exact concatFails_false_of_nodup _ hnodup_idx
  have hcs : concatStage (concatInput fetch false [] ts (some false) "1d")
      = concatDFS (ts.map (fun t => (t, dlOutcome fetch t))) := by
    rw [concatStage_noFail _ hnofail, hci]
  have hcore := cols_core fetch ts f g hnd hf hout_f hout_s
    (fun s hs hne => ⟨(hg s hs hne).1, (hg s hs hne).2.1, (hg s hs hne).2.2.2⟩)
  have hcols_t : gb = GroupBy.ticker →
      (download fetch ts (some false) "1d" false [] gb true).1.cols
        = (concatDFS (ts.map (fun t => (t, dlOutcome fetch t)))).cols := by
    rintro rfl
    rw [download_table, applyDropLevel_mli, applyGroupBy_ticker, table_mk_cols, hcs]
  have hcols_c : gb = GroupBy.column →
      (download fetch ts (some false) "1d" false [] gb true).1.cols
        = sortLe colLe
            ((concatDFS (ts.map (fun t => (t, dlOutcome fetch t)))).cols.map
              (fun c => (swapKey c.1, c.2))) := by
    rintro rfl
    rw [download_table, applyDropLevel_mli, applyGroupBy_column, table_mk_cols,
      table_mk_cols, hcs]
  have herr : (download fetch ts (some false) "1d" false [] gb true).2 = [(f, e)] := by
    rw [download_snd, loopState_false, hself, init_run_errors fetch ts hup hnd]
    exact filterMap_err_single fetch f e ts hnd hf
      (by unfold fetchErr; rw [hfe])
      (fun s hs hsne => by unfold fetchErr; rw [hok s hs hsne])
  refine ⟨?_, ?_, ?_, herr⟩
  · intro s hs
    cases gb with
    | ticker =>
      rcases hcore.1 s hs with ⟨c, hc, fld, hk⟩
      refine ⟨c, ?_, ?_⟩
      · rw [hcols_t rfl]
        exact hc
      · rw [hk]
        rfl
    | column =>
      rcases hcore.1 s hs with ⟨c, hc, fld, hk⟩
      refine ⟨(swapKey c.1, c.2), ?_, ?_⟩
      · rw [hcols_c rfl, mem_sortLe]
        exact List.mem_map_of_mem _ hc
      · show colTicker GroupBy.column (swapKey c.1) = some s
        rw [hk]
        rfl
  · intro s hs hne
    cases gb with
    | ticker =>
      rcases hcore.2.1 s hs hne with ⟨c, hc, ⟨fld, hk⟩, v, hvm, hvs⟩
      refine ⟨c, ?_, ?_, v, hvm, hvs⟩
      · rw [hcols_t rfl]
        exact hc
      · rw [hk]
        rfl
    | column =>
      rcases hcore.2.1 s hs hne with ⟨c, hc, ⟨fld, hk⟩, v, hvm, hvs⟩
      refine ⟨(swapKey c.1, c.2), ?_, ?_, v, hvm, hvs⟩
      · rw [hcols_c rfl, mem_sortLe]
        exact List.mem_map_of_mem _ hc
      · show colTicker GroupBy.column (swapKey c.1) = some s
        rw [hk]
        rfl
  · intro c hc hticker v hv
    cases gb with
    | ticker =>
      rw [hcols_t rfl] at hc
      rcases concatDFS_key _ c hc with ⟨s, fld, hk, _⟩
      have hsf : s = f := by
        rw [hk] at hticker
        simpa [colTicker] using hticker
      exact hcore.2.2 c hc fld (by rw [hk, hsf]) v hv
    | column =>
      rw [hcols_c rfl, mem_sortLe] at hc
      rcases List.mem_map.1 hc with ⟨c0, hc0, hce⟩
      rcases concatDFS_key _ c0 hc0 with ⟨s, fld, hk, _⟩
      have hsf : s = f := by
        rw [← hce] at hticker
        have hclk : colTicker GroupBy.column (swapKey c0.1) = some f := hticker
        rw [hk] at hclk
        simpa [colTicker, swapKey] using hclk
      have hv2 : v ∈ c0.2 := by
        rw [← hce] at hv
        exact hv
      exact hcore.2.2 c0 hc0 fld (by rw [hk, hsf]) v hv2

/-- Witness for C2 at a concrete input: AAPL succeeds with a one-row frame,
INTC raises; the error map is the singleton and the INTC column is empty. -/
theorem C2_one_failed_column_witness :
    (download fetchOneBad ["AAPL", "INTC"] (some false) "1d" false []
      GroupBy.ticker true).2 = [("INTC", "HTTPError")] ∧
    (["INTC", "Open"], [(none : Option Int)])
        ∈ (download fetchOneBad ["AAPL", "INTC"] (some false) "1d" false []
            GroupBy.ticker true).1.cols ∧
    ((none : Option Int) = none) := by
  have h := C2_one_failed_column fetchOneBad ["AAPL", "INTC"] "INTC" "HTTPError"
    (fun _ => dfConcA) GroupBy.ticker (by decide) (by decide) (by decide) (by rfl)
    (fun s hs hne => by
      have hsa : s = "AAPL" := by
        rcases List.mem_cons.1 hs with h1 | h1
        · exact h1
        · exact absurd (by simpa using h1) hne
      rw [hsa]
      rfl)
    (fun s hs hne => by
      have hsa : s = "AAPL" := by
        rcases List.mem_cons.1 hs with h1 | h1
        · exact h1
        · exact absurd (by simpa using h1) hne
      rw [hsa]
      refine ⟨by decide, by decide, by decide, ?_⟩
      intro r hr
      have hra : r = (⟨0, some 0⟩, [some 1]) := by
        simpa [dfConcA] using hr
      rw [hra]
      exact ⟨by decide, by decide⟩)
  refine ⟨h.2.2.2, by decide, ?_⟩
  exact h.2.2.1 (["INTC", "Open"], [(none : Option Int)]) (by decide) (by decide)
    none (by decide)

end YFin
